import Mathlib

/-!
Verification development for the Weave virtual-DOM reconciliation core.

The definitions below are a shallow embedding of the TypeScript sources:
  * `src/core/vnode.ts` / `createVNode` (the variant that assigns the
    internal monotonically increasing `__id`),
  * `src/core/h.ts` (`h`, `normalizeChildren`),
  * `src/core/diff.ts` (`diff`, `diffNonNull`),
  * `src/renderer/createRenderer.ts` (the variant whose `nodeMap` is keyed
    by the numeric `__id`): `createNode`, `commit`, `finalizeRemoval`.

JavaScript reference identity of VNode objects is rendered by the numeric
`id` field (`__id` in the source), which the factory assigns freshly to
every constructed node.  JS `Map`s keyed by VNode objects are therefore
modelled as maps keyed by `id`.
-/

namespace Weave

/-- Primitive JavaScript values appearing as prop values and as keys.
`obj r` stands for an object value compared by reference `r`;
`vnull` stands for the JS `null` value. -/
inductive PVal where
  | str (s : String)
  | num (n : Int)
  | boolean (b : Bool)
  | vnull
  | obj (r : Nat)
deriving DecidableEq

/-- Presence of the three optional lifecycle hooks stored under the reserved
`hooks` key of props (`VNodeHooks` in `types.ts`).  Hook bodies are
caller-supplied functions; the renderer model records their invocation as
trace events, so only their presence is represented. -/
structure HookSet where
  hasCreate : Bool
  hasUpdate : Bool
  hasRemove : Bool
deriving DecidableEq

/-- A props object: the enumerable non-reserved entries, in enumeration
order, plus the value stored under the reserved `hooks` key. -/
structure Props where
  entries : List (String × PVal)
  hooks : Option HookSet
deriving DecidableEq

mutual
/-- The VNode shape of `types.ts` (`type`, `props`, `children`, `key`)
together with the internal identity `__id` attached by `createVNode`. -/
inductive VNode : Type where
  | mk (ty : String) (props : Option Props) (children : VChildren) (key : Option PVal) (id : Nat)

/-- The `VNodeChildren` union: `null`, text, or an array of VNodes. -/
inductive VChildren : Type where
  | cnone
  | ctext (s : String)
  | cnodes (l : List VNode)
end

def VNode.ty : VNode → String
  | .mk t _ _ _ _ => t

def VNode.props : VNode → Option Props
  | .mk _ p _ _ _ => p

def VNode.children : VNode → VChildren
  | .mk _ _ c _ _ => c

def VNode.key : VNode → Option PVal
  | .mk _ _ _ k _ => k

def VNode.id : VNode → Nat
  | .mk _ _ _ _ i => i

/-- The patch variants of `patch-types.ts`. -/
inductive Patch where
  | replace (vnode : Option VNode)
  | updateText (vnode : VNode) (value : String)
  | setProp (vnode : VNode) (key : String) (value : PVal)
  | removeProp (vnode : VNode) (key : String)
  | insert (parent : VNode) (vnode : VNode) (index : Nat)
  | remove (parent : VNode) (vnode : VNode)
  | move (parent : VNode) (vnode : VNode) (fromIdx toIdx : Nat)
  | update (oldVNode newVNode : VNode)

/-- The props object used for diffing: `prev.props ?? {}`. -/
def propEntries : Option Props → List (String × PVal)
  | none => []
  | some pr => pr.entries

/-- JS object property access `entries[key]` (object keys are unique, the
first binding is the value). -/
def propLookup : List (String × PVal) → String → Option PVal
  | [], _ => none
  | e :: es, k => if e.1 = k then some e.2 else propLookup es k

/-- SET_PROP patches: for every enumerated key of the next props whose value
differs (JS `!==`) from the previous value at that key.  The reserved
`hooks` key is not among `entries` (it is carried in the separate `hooks`
field), which renders the `if (key === 'hooks') continue` guard. -/
def setPropPatches (target : VNode) (oldE newE : List (String × PVal)) : List Patch :=
  newE.filterMap fun e =>
    if propLookup oldE e.1 = some e.2 then none else some (.setProp target e.1 e.2)

/-- REMOVE_PROP patches: for every enumerated key of the previous props that
is absent (`!(key in newProps)`) from the next props. -/
def removePropPatches (target : VNode) (oldE newE : List (String × PVal)) : List Patch :=
  oldE.filterMap fun e =>
    if (propLookup newE e.1).isSome then none else some (.removeProp target e.1)

/-- Children normalization in the diff: `Array.isArray(c) ? c : []`. -/
def childList : VChildren → List VNode
  | .cnodes l => l
  | _ => []

/-- The keyed-strategy trigger: some child on either side has `key != null`. -/
def hasAnyKey (oldC newC : List VNode) : Bool :=
  oldC.any (fun c => c.key.isSome) || newC.any (fun c => c.key.isSome)

/-- The `oldKeyMap` lookup.  The map is built by a forward `forEach` of
`Map.set`, so a later child with the same key overwrites an earlier one;
accordingly the lookup prefers the rightmost match. -/
def keyLookup : List VNode → PVal → Option VNode
  | [], _ => none
  | c :: cs, k =>
    match keyLookup cs k with
    | some d => some d
    | none => if c.key = some k then some c else none

/-- The `oldIndexMap` lookup by the identity of a child (`Map<VNode, number>`
keyed by object reference, rendered by `id`); built forward by `Map.set`,
so the rightmost occurrence of an identity wins. -/
def indexOfId : List VNode → Nat → Nat → Option Nat
  | [], _, _ => none
  | c :: cs, i, t =>
    match indexOfId cs (i + 1) t with
    | some j => some j
    | none => if c.id = t then some i else none

/-- The identities added to `usedOld` during the keyed pass: for every next
child whose non-null key is found in `oldKeyMap`, the matched old child
(added before the type comparison, hence also for type mismatches). -/
def usedIds (oldC newC : List VNode) : List Nat :=
  newC.filterMap fun d => d.key.bind fun k => (keyLookup oldC k).map VNode.id

/-- The cleanup pass after keyed reconciliation: REMOVE every old child that
was never marked used. -/
def removesUnused (parent : VNode) (oldC newC : List VNode) : List Patch :=
  (oldC.filter fun c => !((usedIds oldC newC).contains c.id)).map
    (fun c => .remove parent c)

/-- The rightmost-match lookup only returns members of the list. -/
theorem keyLookup_mem {l : List VNode} {k : PVal} {c : VNode}
    (h : keyLookup l k = some c) : c ∈ l := by
  induction l with
  | nil => simp [keyLookup] at h
  | cons a as ih =>
    rw [keyLookup] at h
    cases hh : keyLookup as k with
    | some d =>
      rw [hh] at h
      cases h
      exact List.mem_cons_of_mem _ (ih hh)
    | none =>
      rw [hh] at h
      by_cases hk : a.key = some k
      · rw [if_pos hk] at h
        injection h with h
        subst h
        exact List.mem_cons_self _ _
      · rw [if_neg hk] at h
        cases h

/-- Size bound for the children list extracted from a node. -/
theorem sizeOf_childList_lt (p : VNode) : sizeOf (childList p.children) < sizeOf p := by
  cases p with
  | mk t pr c k i => cases c <;> simp [childList, VNode.children] <;> omega

/-- The text fast-path test: both `children` values are strings
(`typeof prev.children === 'string' && typeof next.children === 'string'`). -/
def bothText : VChildren → VChildren → Option (String × String)
  | .ctext s, .ctext t => some (s, t)
  | _, _ => none

mutual
/-- The body of `diffNonNull` in `diff.ts`: type-change short-circuit, text
fast path, prop diff, children diff (keyed or by index), trailing UPDATE. -/
def diffNonNull (p n : VNode) : List Patch :=
  if p.ty ≠ n.ty then [.replace (some n)]
  else
    match bothText p.children n.children with
    | some (s, t) =>
        (if s ≠ t then [.updateText p t] else []) ++ [.update p n]
    | none =>
        setPropPatches p (propEntries p.props) (propEntries n.props)
          ++ removePropPatches p (propEntries p.props) (propEntries n.props)
          ++ (if hasAnyKey (childList p.children) (childList n.children) then
                keyedChildren p (childList p.children) 0 (childList n.children)
                  ++ removesUnused p (childList p.children) (childList n.children)
              else indexChildren p 0 (childList p.children) (childList n.children))
          ++ [.update p n]
  termination_by sizeOf p + sizeOf n
  decreasing_by
    all_goals
      have h1 := sizeOf_childList_lt p
      have h2 := sizeOf_childList_lt n
      omega

/-- The body of one iteration of the `newChildren.forEach` loop of the
keyed strategy, for the next child `d` at target index `j`: match by key;
on a type change emit REMOVE + INSERT; otherwise recurse and detect a
reorder via the old index. -/
def keyedStep (parent : VNode) (oldC : List VNode) (j : Nat) (d : VNode) :
    List Patch :=
  match d.key with
  | some k =>
    match h : keyLookup oldC k with
    | some c =>
      if c.ty ≠ d.ty then [.remove parent c, .insert parent d j]
      else
        diffNonNull c d ++
          (if (indexOfId oldC 0 c.id).getD 0 ≠ j then
             [.move parent c ((indexOfId oldC 0 c.id).getD 0) j]
           else [])
    | none => [.insert parent d j]
  | none => [.insert parent d j]
  termination_by sizeOf oldC + sizeOf d
  decreasing_by
    have hc := List.sizeOf_lt_of_mem (keyLookup_mem h)
    omega

/-- The `newChildren.forEach` loop of the keyed strategy, carrying the
running index `j`. -/
def keyedChildren (parent : VNode) (oldC : List VNode) (j : Nat) :
    List VNode → List Patch
  | [] => []
  | d :: ds => keyedStep parent oldC j d ++ keyedChildren parent oldC (j + 1) ds
  termination_by l => sizeOf oldC + sizeOf l
  decreasing_by
    all_goals
      simp only [List.cons.sizeOf_spec]
      omega

/-- The positional loop of the index strategy (`for i = 0; i < max; i++`
with `oldChildren[i] ?? null` and `newChildren[i] ?? null`). -/
def indexChildren (parent : VNode) (i : Nat) :
    List VNode → List VNode → List Patch
  | [], [] => []
  | [], d :: ds => .insert parent d i :: indexChildren parent (i + 1) [] ds
  | c :: cs, [] => .remove parent c :: indexChildren parent (i + 1) cs []
  | c :: cs, d :: ds =>
    (if c.ty ≠ d.ty then [.remove parent c, .insert parent d i]
     else diffNonNull c d)
      ++ indexChildren parent (i + 1) cs ds
  termination_by l m => sizeOf l + sizeOf m
  decreasing_by
    all_goals
      simp only [List.cons.sizeOf_spec]
      omega
end

/-- The entry point `diff` of `diff.ts` with its null transitions. -/
def diff : Option VNode → Option VNode → List Patch
  | none, some n => [.replace (some n)]
  | some _, none => [.replace none]
  | none, none => []
  | some p, some n => diffNonNull p n

/-- Raw child arguments accepted by `h` before normalization.  `rnull`
stands for both `null` and `undefined`. -/
inductive RawChild where
  | rnull
  | rbool (b : Bool)
  | rnum (n : Int)
  | rstr (s : String)
  | rnode (v : VNode)
  | rlist (l : List RawChild)

mutual
/-- The recursive `walk` of `normalizeChildren` in `h.ts`, threading the
accumulated element list and the text accumulator (`text` starts as `null`
and becomes `(text ?? '') + String(child)` on text-like input). -/
def walk : RawChild → List VNode × Option String → List VNode × Option String
  | .rnull, st => st
  | .rbool _, st => st
  | .rlist l, st => walkList l st
  | .rnum n, st => (st.1, some ((st.2.getD "") ++ toString n))
  | .rstr s, st => (st.1, some ((st.2.getD "") ++ s))
  | .rnode v, st => (st.1 ++ [v], st.2)
  termination_by c => sizeOf c

/-- The `child.forEach(walk)` flattening of nested arrays. -/
def walkList : List RawChild → List VNode × Option String → List VNode × Option String
  | [], st => st
  | c :: cs, st => walkList cs (walk c st)
  termination_by l => sizeOf l
end

/-- The `normalizeChildren` of `h.ts`: walk all inputs, fail on surviving
mixed text/element children, otherwise produce elements, text, or `null`. -/
def normalizeChildren (input : List RawChild) : Except String VChildren :=
  let r := walkList input ([], none)
  if r.1.length > 0 && r.2.isSome then
    .error "Mixed text and element children are not supported yet"
  else if r.1.length > 0 then .ok (.cnodes r.1)
  else
    match r.2 with
    | some t => .ok (.ctext t)
    | none => .ok .cnone

/-- The `createVNode` of `vnode.ts` (the `__id` variant): the module-level
counter `vnodeId` is rendered as explicit state, the constructed node gets
the current counter value as its identity and the counter is bumped. -/
def createVNode (ty : String) (props : Option Props) (children : VChildren)
    (key : Option PVal) (vnodeId : Nat) : VNode × Nat :=
  (VNode.mk ty props children key vnodeId, vnodeId + 1)

/-- The key extraction of `h`: `if (props && 'key' in props) key = props.key`.
A stored JS `null` value behaves exactly like an absent key everywhere
(every use is a `key != null` test or a map lookup guarded by one), so a
`vnull` entry collapses to `none`. -/
def extractKey (props : Option Props) : Option PVal :=
  match props with
  | none => none
  | some pr =>
    match propLookup pr.entries "key" with
    | none => none
    | some v => if v = .vnull then none else some v

/-- The public factory `h(type, props, ...children)`: extract the key,
normalize the children (which can fail), then build the node via
`createVNode`, threading the identity counter. -/
def h (ty : String) (props : Option Props) (raw : List RawChild)
    (vnodeId : Nat) : Except String (VNode × Nat) :=
  let key := extractKey props
  (normalizeChildren raw).map fun ch => createVNode ty props ch key vnodeId

/-- Size bound used for the termination of `createNode`. -/
theorem sizeOf_cnodes_lt {v : VNode} {l : List VNode}
    (h : v.children = .cnodes l) : sizeOf l < sizeOf v := by
  cases v with
  | mk t pr c k i =>
    cases c <;> simp [VNode.children] at h
    subst h
    simp
    omega

/-- The hooks bag declared on a node (`vnode.props?.hooks`), defaulting to
no hooks. -/
def VNode.hookSet (v : VNode) : HookSet :=
  match v.props with
  | none => ⟨false, false, false⟩
  | some pr => pr.hooks.getD ⟨false, false, false⟩

/-- Host operations and lifecycle-hook invocations recorded by the renderer
model, in the order the renderer performs them. -/
inductive HostOp where
  | createElement (node : Nat) (ty : String)
  | createText (node : Nat) (s : String)
  | setProp (node : Nat) (key : String) (value : PVal)
  | removeProp (node : Nat) (key : String)
  | insert (parent child : Nat) (index : Nat)
  | remove (node : Nat)
  | setText (node : Nat) (s : String)
  | hookCreate (vnodeId node : Nat)
  | hookUpdate (oldId newId node : Nat)
  | hookRemoveStart (vnodeId node : Nat)
deriving DecidableEq

/-- Renderer state for one mounted root: the identity map
`nodeMap : Map<number, Node>` (host handles are numbers in the model), the
current root host node, and a fresh-handle allocator standing for host node
creation. -/
structure RState where
  nodeMap : List (Nat × Nat)
  rootNode : Option Nat
  nextHost : Nat
deriving DecidableEq

/-- JS `Map.get` (map keys are unique, the first binding is the value). -/
def mapGet : List (Nat × Nat) → Nat → Option Nat
  | [], _ => none
  | e :: es, k => if e.1 = k then some e.2 else mapGet es k

/-- JS `Map.set`: overwrite the key's binding in place if present,
otherwise append. -/
def mapSet : List (Nat × Nat) → Nat → Nat → List (Nat × Nat)
  | [], k, v => [(k, v)]
  | e :: es, k, v => if e.1 = k then (k, v) :: es else e :: mapSet es k v

/-- JS `Map.delete`. -/
def mapDelete : List (Nat × Nat) → Nat → List (Nat × Nat)
  | [], _ => []
  | e :: es, k => if e.1 = k then mapDelete es k else e :: mapDelete es k

mutual
/-- The renderer's `createNode`: allocate a host element, apply all
non-`hooks` props, materialize text or child nodes, register the node in
the identity map, then fire the `create` hook. -/
def createNode (st : RState) (v : VNode) : RState × Nat × List HostOp :=
  let node := st.nextHost
  let st1 : RState := { st with nextHost := st.nextHost + 1 }
  let propOps := (propEntries v.props).map fun e => HostOp.setProp node e.1 e.2
  let res :=
    match hch : v.children with
    | .ctext s =>
        (({ st1 with nextHost := st1.nextHost + 1 } : RState),
         [HostOp.createText st1.nextHost s, HostOp.insert node st1.nextHost 0])
    | .cnodes l => createChildren st1 node 0 l
    | .cnone => (st1, [])
  let st3 : RState := { res.1 with nodeMap := mapSet res.1.nodeMap v.id node }
  let hookOps :=
    if (VNode.hookSet v).hasCreate then [HostOp.hookCreate v.id node] else []
  (st3, node, HostOp.createElement node v.ty :: propOps ++ res.2 ++ hookOps)
  termination_by sizeOf v
  decreasing_by
    exact sizeOf_cnodes_lt hch

/-- The `vnode.children.forEach` loop of `createNode`: materialize each
child and insert it at its index. -/
def createChildren (st : RState) (parent : Nat) (i : Nat) :
    List VNode → RState × List HostOp
  | [] => (st, [])
  | c :: cs =>
    let res := createNode st c
    let rest := createChildren res.1 parent (i + 1) cs
    (rest.1, res.2.2 ++ [HostOp.insert parent res.2.1 i] ++ rest.2)
  termination_by l => sizeOf l
end

/-- A removal whose host detach is deferred to a `remove` hook: the captured
closure data of `finalizeRemoval` (the removed vnode's identity and its
host node). -/
structure Pending where
  vnodeId : Nat
  node : Nat
deriving DecidableEq

/-- The renderer's `finalizeRemoval` closure: remove the host node and
delete the identity-map entry.  Note there is no guard: each invocation
performs the host removal again. -/
def finalizeRemoval (st : RState) (pend : Pending) : RState × List HostOp :=
  ({ st with nodeMap := mapDelete st.nodeMap pend.vnodeId },
   [HostOp.remove pend.node])

/-- One iteration of the renderer's `commit` switch.  Returns the new state,
the host/hook operations performed, and the removals handed to `remove`
hooks (whose `finalizeRemoval` has not yet run). -/
def commitPatch (container : Nat) (st : RState) (p : Patch) :
    RState × List HostOp × List Pending :=
  match p with
  | .replace v =>
    let cleared :=
      match st.rootNode with
      | some r => (({ st with rootNode := none, nodeMap := [] } : RState), [HostOp.remove r])
      | none => (st, ([] : List HostOp))
    (match v with
     | some vn =>
       let made := createNode cleared.1 vn
       (({ made.1 with rootNode := some made.2.1 } : RState),
        cleared.2 ++ made.2.2 ++ [HostOp.insert container made.2.1 0], [])
     | none => (cleared.1, cleared.2, []))
  | .updateText v s =>
    (match mapGet st.nodeMap v.id with
     | some node => (st, [HostOp.setText node s], [])
     | none => (st, [], []))
  | .setProp v k val =>
    (match mapGet st.nodeMap v.id with
     | some node => (st, [HostOp.setProp node k val], [])
     | none => (st, [], []))
  | .removeProp v k =>
    (match mapGet st.nodeMap v.id with
     | some node => (st, [HostOp.removeProp node k], [])
     | none => (st, [], []))
  | .insert parent v idx =>
    (match mapGet st.nodeMap parent.id with
     | none => (st, [], [])
     | some parentNode =>
       let made := createNode st v
       (made.1, made.2.2 ++ [HostOp.insert parentNode made.2.1 idx], []))
  | .move parent v _ t =>
    (match mapGet st.nodeMap parent.id, mapGet st.nodeMap v.id with
     | some parentNode, some childNode =>
       (st, [HostOp.remove childNode, HostOp.insert parentNode childNode t], [])
     | _, _ => (st, [], []))
  | .remove _ v =>
    (match mapGet st.nodeMap v.id with
     | none => (st, [], [])
     | some node =>
       if (VNode.hookSet v).hasRemove then
         (st, [HostOp.hookRemoveStart v.id node], [⟨v.id, node⟩])
       else
         let fin := finalizeRemoval st ⟨v.id, node⟩
         (fin.1, fin.2, []))
  | .update a b =>
    (match mapGet st.nodeMap a.id with
     | none => (st, [], [])
     | some node =>
       (({ st with nodeMap := mapSet (mapDelete st.nodeMap a.id) b.id node } : RState),
        if (VNode.hookSet b).hasUpdate then [HostOp.hookUpdate a.id b.id node] else [],
        []))

/-- The `for (const patch of patches)` loop of `commit`, accumulating
operations and pending removals in order. -/
def commitList (container : Nat) (st : RState) :
    List Patch → RState × List HostOp × List Pending
  | [] => (st, [], [])
  | p :: ps =>
    let r1 := commitPatch container st p
    let r2 := commitList container r1.1 ps
    (r2.1, r1.2.1 ++ r2.2.1, r1.2.2 ++ r2.2.2)

/-! Patch-shape classifiers. -/

def isInsertP : Patch → Bool
  | .insert _ _ _ => true
  | _ => false

def isRemoveP : Patch → Bool
  | .remove _ _ => true
  | _ => false

def isMoveP : Patch → Bool
  | .move _ _ _ _ => true
  | _ => false

def isUpdateP : Patch → Bool
  | .update _ _ => true
  | _ => false

def isReplaceP : Patch → Bool
  | .replace _ => true
  | _ => false

def isSetPropP : Patch → Bool
  | .setProp _ _ _ => true
  | _ => false

def isRemovePropP : Patch → Bool
  | .removeProp _ _ => true
  | _ => false

def isUpdateTextP : Patch → Bool
  | .updateText _ _ => true
  | _ => false

/-! Controlled unfolding lemmas for `diffNonNull`. -/

/-- Type change at a matched pair short-circuits to a REPLACE. -/
theorem diffNonNull_ty_ne {p n : VNode} (hne : p.ty ≠ n.ty) :
    diffNonNull p n = [.replace (some n)] := by
  rw [diffNonNull]
  simp [hne]

/-- Unfolding for the text fast path. -/
theorem diffNonNull_text {p n : VNode} {s t : String} (hty : p.ty = n.ty)
    (hp : p.children = .ctext s) (hn : n.children = .ctext t) :
    diffNonNull p n =
      (if s ≠ t then [.updateText p t] else []) ++ [.update p n] := by
  rw [diffNonNull]
  simp [hty, hp, hn, bothText]

/-- Unfolding for the general branch (props diff, children diff, trailing
UPDATE). -/
theorem diffNonNull_main {p n : VNode} (hty : p.ty = n.ty)
    (hbt : bothText p.children n.children = none) :
    diffNonNull p n =
      setPropPatches p (propEntries p.props) (propEntries n.props)
        ++ removePropPatches p (propEntries p.props) (propEntries n.props)
        ++ (if hasAnyKey (childList p.children) (childList n.children) then
              keyedChildren p (childList p.children) 0 (childList n.children)
                ++ removesUnused p (childList p.children) (childList n.children)
            else indexChildren p 0 (childList p.children) (childList n.children))
        ++ [.update p n] := by
  rw [diffNonNull]
  simp [hty, hbt]

/-! Infrastructure for the factory claims. -/

/-- One construction request made to `createVNode` (everything a caller
supplies; the identity counter is threaded separately). -/
structure VNodeData where
  ty : String
  props : Option Props
  children : VChildren
  key : Option PVal

/-- A sequence of constructions in one process: each call reads and bumps
the module-level `vnodeId` counter. -/
def createVNodeSeq : List VNodeData → Nat → List VNode
  | [], _ => []
  | r :: rs, c =>
    let made := createVNode r.ty r.props r.children r.key c
    made.1 :: createVNodeSeq rs made.2

/-- The i-th constructed node carries identity `c0 + i`. -/
theorem createVNodeSeq_id {reqs : List VNodeData} :
    ∀ {c0 i : Nat} {vi : VNode},
      (createVNodeSeq reqs c0).get? i = some vi → vi.id = c0 + i := by
  induction reqs with
  | nil =>
    intro c0 i vi hv
    simp [createVNodeSeq] at hv
  | cons r rs ih =>
    intro c0 i vi hv
    cases i with
    | zero =>
      simp [createVNodeSeq, createVNode] at hv
      subst hv
      rfl
    | succ i =>
      simp only [createVNodeSeq, List.get?] at hv
      have := ih hv
      simp [createVNode] at this
      omega

mutual
/-- The VNode leaves of a raw children argument, in walk order. -/
def collectNodes : RawChild → List VNode
  | .rnode v => [v]
  | .rlist l => collectNodesList l
  | _ => []

def collectNodesList : List RawChild → List VNode
  | [] => []
  | c :: cs => collectNodes c ++ collectNodesList cs
end

mutual
/-- Whether a raw children argument contains a surviving text-like leaf
(a string or a number; `null`/`undefined`/booleans are discarded). -/
def hasTextLeaf : RawChild → Bool
  | .rnum _ => true
  | .rstr _ => true
  | .rlist l => hasTextLeafList l
  | _ => false

def hasTextLeafList : List RawChild → Bool
  | [] => false
  | c :: cs => hasTextLeaf c || hasTextLeafList cs
end

/-- Behaviour of the normalization walker: it appends exactly the VNode
leaves to the element accumulator, and the text accumulator is non-null
afterwards iff it was already non-null or a text-like leaf was seen. -/
theorem walk_spec_bounded : ∀ N : Nat,
    (∀ (c : RawChild) (st : List VNode × Option String), sizeOf c ≤ N →
      (walk c st).1 = st.1 ++ collectNodes c
        ∧ ((walk c st).2).isSome = (st.2.isSome || hasTextLeaf c))
    ∧ (∀ (l : List RawChild) (st : List VNode × Option String), sizeOf l ≤ N →
      (walkList l st).1 = st.1 ++ collectNodesList l
        ∧ ((walkList l st).2).isSome = (st.2.isSome || hasTextLeafList l)) := by
  intro N
  induction N with
  | zero =>
    constructor
    · intro c st hc
      cases c <;> simp_all
    · intro l st hl
      cases l <;> simp_all
  | succ N ih =>
    constructor
    · intro c st hc
      cases c with
      | rnull => simp [walk, collectNodes, hasTextLeaf]
      | rbool b => simp [walk, collectNodes, hasTextLeaf]
      | rnum n => simp [walk, collectNodes, hasTextLeaf]
      | rstr s => simp [walk, collectNodes, hasTextLeaf]
      | rnode v => simp [walk, collectNodes, hasTextLeaf]
      | rlist l =>
        have hl : sizeOf l ≤ N := by
          simp at hc
          omega
        have := ih.2 l st hl
        simpa [walk, collectNodes, hasTextLeaf] using this
    · intro l st hl
      cases l with
      | nil => simp [walkList, collectNodesList, hasTextLeafList]
      | cons c cs =>
        have hc : sizeOf c ≤ N := by
          simp at hl
          omega
        have hcs : sizeOf cs ≤ N := by
          simp at hl
          omega
        have h1 := ih.1 c st hc
        have h2 := ih.2 cs (walk c st) hcs
        refine ⟨?_, ?_⟩
        · rw [walkList, h2.1, h1.1, collectNodesList, List.append_assoc]
        · rw [walkList, h2.2, h1.2, hasTextLeafList, Bool.or_assoc]

/-- Element side of the walker behaviour. -/
theorem walkList_elems (l : List RawChild) (st : List VNode × Option String) :
    (walkList l st).1 = st.1 ++ collectNodesList l :=
  ((walk_spec_bounded (sizeOf l)).2 l st le_rfl).1

/-- Text side of the walker behaviour. -/
theorem walkList_text (l : List RawChild) (st : List VNode × Option String) :
    ((walkList l st).2).isSome = (st.2.isSome || hasTextLeafList l) :=
  ((walk_spec_bounded (sizeOf l)).2 l st le_rfl).2

/-- Claim C7: every Node construction assigns a fresh identity.  In any
construction sequence, a later-constructed node's id is strictly greater
than every earlier one (hence distinct, never reused); and the id is not
part of the enumerable props/children contract: `createVNode` returns a
node whose `type`, `props`, `children` and `key` are exactly the caller's
arguments, carrying the identity only in the separate non-enumerable slot
(the `Object.defineProperty` field of the source). -/
theorem claim_C7_identity_fresh_monotonic :
    (∀ (reqs : List VNodeData) (c0 i j : Nat) (vi vj : VNode),
        (createVNodeSeq reqs c0).get? i = some vi →
        (createVNodeSeq reqs c0).get? j = some vj →
        i < j → vi.id < vj.id)
    ∧ (∀ (reqs : List VNodeData) (c0 i j : Nat) (vi vj : VNode),
        (createVNodeSeq reqs c0).get? i = some vi →
        (createVNodeSeq reqs c0).get? j = some vj →
        i ≠ j → vi.id ≠ vj.id)
    ∧ (∀ (ty : String) (props : Option Props) (children : VChildren)
          (key : Option PVal) (c : Nat),
        (createVNode ty props children key c).1.ty = ty
          ∧ (createVNode ty props children key c).1.props = props
          ∧ (createVNode ty props children key c).1.children = children
          ∧ (createVNode ty props children key c).1.key = key
          ∧ (createVNode ty props children key c).1.id = c
          ∧ (createVNode ty props children key c).2 = c + 1) := by
  refine ⟨?_, ?_, ?_⟩
  · intro reqs c0 i j vi vj hi hj hij
    have h1 := createVNodeSeq_id hi
    have h2 := createVNodeSeq_id hj
    omega
  · intro reqs c0 i j vi vj hi hj hij
    have h1 := createVNodeSeq_id hi
    have h2 := createVNodeSeq_id hj
    omega
  · intro ty props children key c
    exact ⟨rfl, rfl, rfl, rfl, rfl, rfl⟩

/-- Witness for C7 at a concrete two-element construction sequence. -/
theorem claim_C7_identity_witness :
    (VNode.mk "div" none .cnone none 5).id < (VNode.mk "span" none .cnone none 6).id
      ∧ (VNode.mk "div" none .cnone none 5).id ≠ (VNode.mk "span" none .cnone none 6).id
      ∧ (createVNode "div" none .cnone none 5).1.props = none := by
  have h := claim_C7_identity_fresh_monotonic
  refine ⟨?_, ?_, (h.2.2 "div" none .cnone none 5).2.1⟩
  · exact h.1 [⟨"div", none, .cnone, none⟩, ⟨"span", none, .cnone, none⟩] 5 0 1 _ _
      rfl rfl (by decide)
  · exact h.2.1 [⟨"div", none, .cnone, none⟩, ⟨"span", none, .cnone, none⟩] 5 0 1 _ _
      rfl rfl (by decide)

/-- Props object used for the C8 counterexample: a `key` entry alongside an
ordinary prop. -/
def props8 : Props := ⟨[("key", .str "a"), ("cls", .str "x")], none⟩

/-- Counterexample to claim C8: `h` stores `props.key` on the node's `key`
field, but the returned node's props are the caller's props object,
unchanged — the `key` entry is still present in them (and is therefore
diffed and applied like an ordinary renderable prop). -/
theorem claim_C8_counterexample :
    h "div" (some props8) [] 0 =
      .ok (VNode.mk "div" (some props8) .cnone (some (.str "a")) 0, 1)
    ∧ propLookup (propEntries (VNode.mk "div" (some props8) .cnone (some (.str "a")) 0).props)
        "key" = some (.str "a") := by
  constructor
  · simp [h, normalizeChildren, walkList, extractKey, createVNode, props8, propLookup,
      Except.map]
  · rfl

/-- Claim C8 as amended: for every `h` call whose props carry a non-null
`key` entry, the returned node's `key` field equals that entry's value,
but the entry is left in the node's props (the props object is passed
through unchanged). -/
theorem claim_C8_amended_key_extracted_props_unchanged :
    ∀ (ty : String) (props : Option Props) (raw : List RawChild)
      (c0 : Nat) (v : VNode) (c1 : Nat) (kv : PVal),
      h ty props raw c0 = .ok (v, c1) →
      propLookup (propEntries props) "key" = some kv → kv ≠ .vnull →
      v.key = some kv ∧ v.props = props := by
  intro ty props raw c0 v c1 kv hok hkv hne
  cases hn : normalizeChildren raw with
  | error e => simp [h, hn, Except.map] at hok
  | ok ch =>
    simp only [h, hn, Except.map] at hok
    injection hok with hok
    injection hok with hok1 hok2
    subst hok1
    have hek : extractKey props = some kv := by
      cases props with
      | none => simp [propEntries, propLookup] at hkv
      | some pr =>
        simp only [propEntries] at hkv
        simp [extractKey, hkv, hne]
    simp [createVNode, hek, VNode.key, VNode.props]

/-- Witness for the amended C8 at the concrete counterexample input. -/
theorem claim_C8_amended_witness :
    (VNode.mk "div" (some props8) .cnone (some (.str "a")) 0).key = some (.str "a")
      ∧ (VNode.mk "div" (some props8) .cnone (some (.str "a")) 0).props = some props8 :=
  claim_C8_amended_key_extracted_props_unchanged "div" (some props8) [] 0 _ 1 (.str "a")
    claim_C8_counterexample.1 rfl (by decide)

/-- Characterization of the normalization failure: it happens exactly when
both a VNode leaf and a text-like leaf survive the walk. -/
theorem normalizeChildren_error_iff (raw : List RawChild) :
    (∃ e, normalizeChildren raw = .error e) ↔
      (collectNodesList raw ≠ [] ∧ hasTextLeafList raw = true) := by
  have he := walkList_elems raw ([], none)
  have ht := walkList_text raw ([], none)
  simp only [List.nil_append] at he
  simp only [Option.isSome_none, Bool.false_or] at ht
  rcases hW : walkList raw ([], none) with ⟨els, txt⟩
  rw [hW] at he ht
  simp only at he ht
  subst he
  unfold normalizeChildren
  rw [hW]
  by_cases hcond : (collectNodesList raw).length > 0 ∧ txt.isSome = true
  · have hb : (decide ((collectNodesList raw).length > 0) && txt.isSome) = true := by
      simp [hcond.1, hcond.2]
    simp only [hb, if_true]
    constructor
    · intro _
      refine ⟨?_, by rw [← ht]; exact hcond.2⟩
      intro hnil
      rw [hnil] at hcond
      simp at hcond
    · intro _
      exact ⟨_, rfl⟩
  · have hb : (decide ((collectNodesList raw).length > 0) && txt.isSome) = false := by
      rcases Decidable.not_and_iff_or_not.mp hcond with hc | hc <;> simp [hc]
    simp only [hb, Bool.false_eq_true, if_false]
    constructor
    · rintro ⟨e, hce⟩
      by_cases h1 : (collectNodesList raw).length > 0 <;>
        simp [h1] at hce <;>
        rcases htx : txt with _ | t <;>
        rw [htx] at hce <;>
        simp at hce
    · rintro ⟨hnil, htl⟩
      exfalso
      apply hcond
      refine ⟨by cases hc : collectNodesList raw <;> simp_all, ?_⟩
      rw [ht]
      exact htl

/-- Claim C9: `h` fails with a construction error exactly when children
normalization finds both surviving text leaves (strings or numbers) and
element leaves at one position; the error is returned to the caller and no
node is produced (the `Except` carries either the error or the node). -/
theorem claim_C9_mixed_children_error :
    ∀ (ty : String) (props : Option Props) (raw : List RawChild) (c0 : Nat),
      (∃ e, h ty props raw c0 = .error e) ↔
        (collectNodesList raw ≠ [] ∧ hasTextLeafList raw = true) := by
  intro ty props raw c0
  rw [← normalizeChildren_error_iff raw]
  constructor
  · rintro ⟨e, hex⟩
    cases hn : normalizeChildren raw with
    | error e2 => exact ⟨e2, rfl⟩
    | ok ch =>
      rw [h, hn] at hex
      simp [Except.map] at hex
  · rintro ⟨e, hn⟩
    exact ⟨e, by simp [h, hn, Except.map]⟩

/-- Witness for C9: a concrete mixed text/element call fails. -/
theorem claim_C9_mixed_children_error_witness :
    (h "div" none [.rstr "x", .rnode (VNode.mk "p" none .cnone none 7)] 0).isOk
      = false := by
  obtain ⟨e, he⟩ :=
    (claim_C9_mixed_children_error "div" none
        [.rstr "x", .rnode (VNode.mk "p" none .cnone none 7)] 0).mpr
      (by
        constructor
        · simp [collectNodesList, collectNodes]
        · simp [hasTextLeafList, hasTextLeaf])
  rw [he]
  rfl

/-! Identity-map lemmas for the renderer. -/

/-- Setting a key makes it retrievable. -/
theorem mapGet_set_self (m : List (Nat × Nat)) (k v : Nat) :
    mapGet (mapSet m k v) k = some v := by
  induction m with
  | nil => simp [mapSet, mapGet]
  | cons e es ih =>
    by_cases he : e.1 = k
    · simp [mapSet, he, mapGet]
    · simp [mapSet, he, mapGet, ih]

/-- Setting one key leaves other keys unchanged. -/
theorem mapGet_set_ne (m : List (Nat × Nat)) {k x : Nat} (v : Nat) (hxk : x ≠ k) :
    mapGet (mapSet m k v) x = mapGet m x := by
  induction m with
  | nil => simp [mapSet, mapGet, Ne.symm hxk]
  | cons e es ih =>
    by_cases he : e.1 = k
    · simp [mapSet, he, mapGet, Ne.symm hxk]
    · simp [mapSet, he, mapGet, ih]


/-- Deleting a key removes it. -/
theorem mapGet_delete_self (m : List (Nat × Nat)) (k : Nat) :
    mapGet (mapDelete m k) k = none := by
  induction m with
  | nil => rfl
  | cons e es ih =>
    by_cases he : e.1 = k
    · simp [mapDelete, he, ih]
    · simp [mapDelete, he, mapGet, ih]

/-- Deleting one key leaves other keys unchanged. -/
theorem mapGet_delete_ne (m : List (Nat × Nat)) {k x : Nat} (hxk : x ≠ k) :
    mapGet (mapDelete m k) x = mapGet m x := by
  induction m with
  | nil => rfl
  | cons e es ih =>
    by_cases he : e.1 = k
    · have hex : ¬ e.1 = x := by omega
      simp [mapDelete, he, mapGet, hex, Ne.symm hxk, ih]
    · by_cases hex : e.1 = x
      · simp [mapDelete, he, mapGet, hex, hxk]
      · simp [mapDelete, he, mapGet, hex, ih]

/-- Claim C4: for a committed REMOVE whose node declares a `remove` hook,
the engine neither detaches the host node nor deletes the identity-map
entry during commit — it only invokes the hook, handing it the completion
callback (the pending finalization); once that callback runs, the host
node is removed and the map entry is gone.  Without a hook, both happen
immediately during commit. -/
theorem claim_C4_removal_deferral :
    ∀ (container : Nat) (st : RState) (parent v : VNode) (node : Nat),
      mapGet st.nodeMap v.id = some node →
      ((VNode.hookSet v).hasRemove = true →
        (commitPatch container st (.remove parent v)).1 = st
          ∧ (commitPatch container st (.remove parent v)).2.1
              = [HostOp.hookRemoveStart v.id node]
          ∧ (commitPatch container st (.remove parent v)).2.2 = [⟨v.id, node⟩]
          ∧ (finalizeRemoval st ⟨v.id, node⟩).2 = [HostOp.remove node]
          ∧ (finalizeRemoval st ⟨v.id, node⟩).1.nodeMap = mapDelete st.nodeMap v.id
          ∧ mapGet (finalizeRemoval st ⟨v.id, node⟩).1.nodeMap v.id = none)
      ∧ ((VNode.hookSet v).hasRemove = false →
        (commitPatch container st (.remove parent v)).2.1 = [HostOp.remove node]
          ∧ (commitPatch container st (.remove parent v)).1.nodeMap
              = mapDelete st.nodeMap v.id
          ∧ mapGet (commitPatch container st (.remove parent v)).1.nodeMap v.id
              = none) := by
  intro container st parent v node hnode
  constructor
  · intro hhook
    refine ⟨?_, ?_, ?_, ?_, ?_, ?_⟩ <;>
      simp [commitPatch, hnode, hhook, finalizeRemoval, mapGet_delete_self]
  · intro hhook
    refine ⟨?_, ?_, ?_⟩ <;>
      simp [commitPatch, hnode, hhook, finalizeRemoval, mapGet_delete_self]

/-- Concrete nodes and state for the removal claims: `v5` declares a
`remove` hook, `v5n` declares none. -/
def v5 : VNode := .mk "p" (some ⟨[], some ⟨false, false, true⟩⟩) .cnone none 50

def v5n : VNode := .mk "p" none .cnone none 60

def par5 : VNode := .mk "div" none (.cnodes [v5]) none 51

def st5 : RState := ⟨[(50, 101), (60, 102)], some 100, 200⟩

/-- Witness for C4 at a concrete hooked node and a concrete unhooked one. -/
theorem claim_C4_removal_deferral_witness :
    ((commitPatch 99 st5 (.remove par5 v5)).1 = st5
        ∧ (commitPatch 99 st5 (.remove par5 v5)).2.1
            = [HostOp.hookRemoveStart v5.id 101]
        ∧ (commitPatch 99 st5 (.remove par5 v5)).2.2 = [⟨v5.id, 101⟩]
        ∧ (finalizeRemoval st5 ⟨v5.id, 101⟩).2 = [HostOp.remove 101]
        ∧ (finalizeRemoval st5 ⟨v5.id, 101⟩).1.nodeMap = mapDelete st5.nodeMap v5.id
        ∧ mapGet (finalizeRemoval st5 ⟨v5.id, 101⟩).1.nodeMap v5.id = none)
      ∧ ((commitPatch 99 st5 (.remove par5 v5n)).2.1 = [HostOp.remove 102]
        ∧ (commitPatch 99 st5 (.remove par5 v5n)).1.nodeMap
            = mapDelete st5.nodeMap v5n.id
        ∧ mapGet (commitPatch 99 st5 (.remove par5 v5n)).1.nodeMap v5n.id = none) :=
  ⟨(claim_C4_removal_deferral 99 st5 par5 v5 101 rfl).1 rfl,
   (claim_C4_removal_deferral 99 st5 par5 v5n 102 rfl).2 rfl⟩

/-- Counterexample to claim C5: the completion callback has no guard, so a
hook that invokes it twice makes the engine perform the host removal of
the same node twice. -/
theorem claim_C5_counterexample :
    ((commitPatch 99 st5 (.remove par5 v5)).2.2 = [⟨50, 101⟩])
      ∧ ((commitPatch 99 st5 (.remove par5 v5)).2.1.count (HostOp.remove 101) = 0)
      ∧ (((finalizeRemoval st5 ⟨50, 101⟩).2
            ++ (finalizeRemoval (finalizeRemoval st5 ⟨50, 101⟩).1 ⟨50, 101⟩).2).count
              (HostOp.remove 101) = 2) := by
  refine ⟨rfl, rfl, rfl⟩

/-- Claim C5 as amended: removal finalization performs exactly one host
removal per completion-callback invocation — none during a hooked commit,
one per `finalizeRemoval` call, and exactly one when no hook is declared.
The engine is idempotent-safe only when the hook invokes its callback at
most once; it has no guard against repeated invocation. -/
theorem claim_C5_amended_one_remove_per_completion :
    ∀ (container : Nat) (st st2 : RState) (parent v : VNode) (node : Nat),
      mapGet st.nodeMap v.id = some node →
      ((VNode.hookSet v).hasRemove = true →
        ((commitPatch container st (.remove parent v)).2.1.count
            (HostOp.remove node) = 0)
          ∧ (finalizeRemoval st2 ⟨v.id, node⟩).2.count (HostOp.remove node) = 1)
      ∧ ((VNode.hookSet v).hasRemove = false →
        ((commitPatch container st (.remove parent v)).2.1.count
            (HostOp.remove node) = 1)) := by
  intro container st st2 parent v node hnode
  constructor
  · intro hhook
    constructor <;> simp [commitPatch, hnode, hhook, finalizeRemoval]
  · intro hhook
    simp [commitPatch, hnode, hhook, finalizeRemoval]

/-- Witness for the amended C5 at the concrete removal scenario. -/
theorem claim_C5_amended_witness :
    (((commitPatch 99 st5 (.remove par5 v5)).2.1.count (HostOp.remove 101) = 0)
        ∧ (finalizeRemoval st5 ⟨v5.id, 101⟩).2.count (HostOp.remove 101) = 1)
      ∧ ((commitPatch 99 st5 (.remove par5 v5n)).2.1.count (HostOp.remove 102) = 1) :=
  ⟨(claim_C5_amended_one_remove_per_completion 99 st5 st5 par5 v5 101 rfl).1 rfl,
   (claim_C5_amended_one_remove_per_completion 99 st5 st5 par5 v5n 102 rfl).2 rfl⟩

/-- Claim C6: committing UPDATE(old, new) with `old.id` present in the
identity map re-keys the entry to `new.id` keeping the same host handle
(delete old key, insert new key), then invokes the `update` hook declared
on the new node's props, if any, with both node identities and the host
node; with `old.id` absent the patch is a no-op: no state change, no hook
invocation. -/
theorem claim_C6_update_commit :
    ∀ (container : Nat) (st : RState) (a b : VNode),
      (∀ node : Nat, mapGet st.nodeMap a.id = some node →
        (commitPatch container st (.update a b)).1.nodeMap
            = mapSet (mapDelete st.nodeMap a.id) b.id node
          ∧ mapGet (commitPatch container st (.update a b)).1.nodeMap b.id = some node
          ∧ (commitPatch container st (.update a b)).2.1
              = (if (VNode.hookSet b).hasUpdate then [HostOp.hookUpdate a.id b.id node]
                 else []))
      ∧ (mapGet st.nodeMap a.id = none →
        (commitPatch container st (.update a b)).1 = st
          ∧ (commitPatch container st (.update a b)).2.1 = []) := by
  intro container st a b
  constructor
  · intro node hnode
    refine ⟨?_, ?_, ?_⟩ <;> simp [commitPatch, hnode, mapGet_set_self]
  · intro hnone
    constructor <;> simp [commitPatch, hnone]

/-- Concrete UPDATE pair for the C6 witness: the new node declares an
`update` hook. -/
def c6a : VNode := .mk "div" none .cnone none 1

def c6b : VNode := .mk "div" (some ⟨[], some ⟨false, true, false⟩⟩) .cnone none 2

/-- Witness for C6 at a concrete state holding the old entry, plus the
missing-entry no-op at an absent id. -/
theorem claim_C6_update_commit_witness :
    ((commitPatch 99 ⟨[(1, 8)], some 8, 9⟩ (.update c6a c6b)).1.nodeMap
        = mapSet (mapDelete [(1, 8)] c6a.id) c6b.id 8
      ∧ mapGet (commitPatch 99 ⟨[(1, 8)], some 8, 9⟩ (.update c6a c6b)).1.nodeMap c6b.id
          = some 8
      ∧ (commitPatch 99 ⟨[(1, 8)], some 8, 9⟩ (.update c6a c6b)).2.1
          = (if (VNode.hookSet c6b).hasUpdate then [HostOp.hookUpdate c6a.id c6b.id 8]
             else []))
    ∧ ((commitPatch 99 ⟨[], none, 9⟩ (.update c6a c6b)).1 = (⟨[], none, 9⟩ : RState)
      ∧ (commitPatch 99 ⟨[], none, 9⟩ (.update c6a c6b)).2.1 = []) :=
  ⟨(claim_C6_update_commit 99 ⟨[(1, 8)], some 8, 9⟩ c6a c6b).1 8 rfl,
   (claim_C6_update_commit 99 ⟨[], none, 9⟩ c6a c6b).2 rfl⟩

/-! Membership lemmas about the diff output, used by the reconciliation
claims. -/

/-- The rightmost-match lookup returns a node carrying the looked-up key. -/
theorem keyLookup_key {l : List VNode} {k : PVal} {c : VNode}
    (h : keyLookup l k = some c) : c.key = some k := by
  induction l with
  | nil => simp [keyLookup] at h
  | cons a as ih =>
    rw [keyLookup] at h
    cases hh : keyLookup as k with
    | some d =>
      rw [hh] at h
      cases h
      exact ih hh
    | none =>
      rw [hh] at h
      by_cases hk : a.key = some k
      · rw [if_pos hk] at h
        injection h with h
        subst h
        exact hk
      · rw [if_neg hk] at h
        cases h

/-- When no child carries the key, the lookup fails. -/
theorem keyLookup_eq_none {l : List VNode} {k : PVal}
    (h : ∀ c ∈ l, c.key ≠ some k) : keyLookup l k = none := by
  induction l with
  | nil => rfl
  | cons a as ih =>
    rw [keyLookup, ih fun c hc => h c (List.mem_cons_of_mem _ hc)]
    simp [h a (List.mem_cons_self _ _)]

/-- Executable pairwise distinctness of a list of identities. -/
def nodupNat : List Nat → Bool
  | [] => true
  | x :: xs => !(xs.contains x) && nodupNat xs

/-- Distinct identities make membership injective on identity. -/
theorem nodupNat_id_inj {l : List VNode} (hnd : nodupNat (l.map VNode.id) = true)
    {c c2 : VNode} (hc : c ∈ l) (hc2 : c2 ∈ l) (hid : c.id = c2.id) : c = c2 := by
  induction l with
  | nil => cases hc
  | cons a as ih =>
    rw [List.map_cons, nodupNat, Bool.and_eq_true] at hnd
    rcases List.mem_cons.mp hc with h1 | h1 <;>
      rcases List.mem_cons.mp hc2 with h2 | h2
    · rw [h1, h2]
    · exfalso
      have hm : c2.id ∈ as.map VNode.id := List.mem_map_of_mem _ h2
      rw [← hid, h1] at hm
      simp [hm] at hnd
    · exfalso
      have hm : c.id ∈ as.map VNode.id := List.mem_map_of_mem _ h1
      rw [hid, h2] at hm
      simp [hm] at hnd
    · exact ih hnd.2 h1 h2

/-- Identities entering `usedOld` always come from a successful key match. -/
theorem mem_usedIds {oldC newC : List VNode} {x : Nat}
    (h : x ∈ usedIds oldC newC) :
    ∃ d ∈ newC, ∃ k, d.key = some k ∧ ∃ c2, keyLookup oldC k = some c2 ∧ c2.id = x := by
  rw [usedIds, List.mem_filterMap] at h
  obtain ⟨d, hd, hfd⟩ := h
  cases hk : d.key with
  | none => rw [hk] at hfd; cases hfd
  | some k =>
    rw [hk] at hfd
    rw [Option.some_bind] at hfd
    cases hc : keyLookup oldC k with
    | none => rw [hc] at hfd; cases hfd
    | some c2 =>
      rw [hc] at hfd
      injection hfd with hfd
      exact ⟨d, hd, k, hk, c2, hc, hfd⟩

/-- An old child never matched by key is emitted by the cleanup pass. -/
theorem mem_removesUnused {parent : VNode} {oldC newC : List VNode} {c : VNode}
    (hc : c ∈ oldC) (hnd : nodupNat (oldC.map VNode.id) = true)
    (hun : c.key = none ∨ ∀ d ∈ newC, d.key ≠ c.key) :
    Patch.remove parent c ∈ removesUnused parent oldC newC := by
  rw [removesUnused]
  apply List.mem_map_of_mem
  rw [List.mem_filter]
  refine ⟨hc, ?_⟩
  suffices hsuff : c.id ∉ usedIds oldC newC by simpa using hsuff
  intro hmem
  obtain ⟨d, hd, k, hdk, c2, hlk, hc2id⟩ := mem_usedIds hmem
  have hc2mem := keyLookup_mem hlk
  have hckey : c.key = some k := by
    rw [← nodupNat_id_inj hnd hc2mem hc hc2id]
    exact keyLookup_key hlk
  rcases hun with hnone | hall
  · rw [hnone] at hckey
    cases hckey
  · exact hall d hd (by rw [hdk, hckey])

/-- Index reconciliation at a type-mismatched position emits REMOVE of the
old child and INSERT of the new one at that index. -/
theorem indexChildren_mem_typechange (parent : VNode) :
    ∀ (j i : Nat) (cs ds : List VNode) (c d : VNode),
      cs.get? j = some c → ds.get? j = some d → c.ty ≠ d.ty →
      Patch.remove parent c ∈ indexChildren parent i cs ds
        ∧ Patch.insert parent d (i + j) ∈ indexChildren parent i cs ds := by
  intro j
  induction j with
  | zero =>
    intro i cs ds c d hc hd hty
    cases cs with
    | nil => simp at hc
    | cons c0 cs2 =>
      cases ds with
      | nil => simp at hd
      | cons d0 ds2 =>
        simp only [List.get?] at hc hd
        injection hc with hc
        injection hd with hd
        subst hc
        subst hd
        rw [indexChildren]
        constructor
        · apply List.mem_append_left
          simp [hty]
        · apply List.mem_append_left
          simp [hty]
  | succ j ih =>
    intro i cs ds c d hc hd hty
    cases cs with
    | nil => simp at hc
    | cons c0 cs2 =>
      cases ds with
      | nil => simp at hd
      | cons d0 ds2 =>
        simp only [List.get?] at hc hd
        have hrec := ih (i + 1) cs2 ds2 c d hc hd hty
        rw [indexChildren]
        rw [show i + (j + 1) = (i + 1) + j by omega]
        exact ⟨List.mem_append_right _ hrec.1, List.mem_append_right _ hrec.2⟩

/-- Index reconciliation recurses into same-type positions: the recursive
diff of such a pair is contained in the sibling pass. -/
theorem indexChildren_mem_recurse (parent : VNode) :
    ∀ (j i : Nat) (cs ds : List VNode) (c d : VNode),
      cs.get? j = some c → ds.get? j = some d → c.ty = d.ty →
      ∀ q ∈ diffNonNull c d, q ∈ indexChildren parent i cs ds := by
  intro j
  induction j with
  | zero =>
    intro i cs ds c d hc hd hty q hq
    cases cs with
    | nil => simp at hc
    | cons c0 cs2 =>
      cases ds with
      | nil => simp at hd
      | cons d0 ds2 =>
        simp only [List.get?] at hc hd
        injection hc with hc
        injection hd with hd
        subst hc
        subst hd
        rw [indexChildren]
        apply List.mem_append_left
        simp only [hty, ne_eq, not_true_eq_false, if_false, ite_false]
        simpa [hty] using hq
  | succ j ih =>
    intro i cs ds c d hc hd hty q hq
    cases cs with
    | nil => simp at hc
    | cons c0 cs2 =>
      cases ds with
      | nil => simp at hd
      | cons d0 ds2 =>
        simp only [List.get?] at hc hd
        rw [indexChildren]
        exact List.mem_append_right _ (ih (i + 1) cs2 ds2 c d hc hd hty q hq)

/-- The keyed pass on an empty next list. -/
theorem keyedChildren_nil (parent : VNode) (oldC : List VNode) (j : Nat) :
    keyedChildren parent oldC j [] = [] := by
  rw [keyedChildren]

/-- The keyed pass is the per-child step followed by the rest. -/
theorem keyedChildren_cons (parent : VNode) (oldC : List VNode) (j : Nat)
    (d : VNode) (ds2 : List VNode) :
    keyedChildren parent oldC j (d :: ds2)
      = keyedStep parent oldC j d ++ keyedChildren parent oldC (j + 1) ds2 := by
  rw [keyedChildren]

/-- Step behaviour for an unkeyed next child: always INSERT. -/
theorem keyedStep_nokey {parent : VNode} {oldC : List VNode} {j : Nat} {d : VNode}
    (hk : d.key = none) : keyedStep parent oldC j d = [.insert parent d j] := by
  rw [keyedStep, hk]

/-- Step behaviour for a keyed next child whose key is not among the old
keyed children: always INSERT. -/
theorem keyedStep_nomatch {parent : VNode} {oldC : List VNode} {j : Nat} {d : VNode}
    {k : PVal} (hk : d.key = some k) (hc : keyLookup oldC k = none) :
    keyedStep parent oldC j d = [.insert parent d j] := by
  rw [keyedStep, hk]
  split
  next k2 heq =>
    injection heq with heq
    subst heq
    split
    next c heq2 =>
      rw [hc] at heq2
      cases heq2
    next heq2 => rfl
  next heq => cases heq

/-- Step behaviour for a key match whose types differ: REMOVE + INSERT,
with no recursion into the pair. -/
theorem keyedStep_tymismatch {parent : VNode} {oldC : List VNode} {j : Nat}
    {d c : VNode} {k : PVal} (hk : d.key = some k)
    (hc : keyLookup oldC k = some c) (hty : c.ty ≠ d.ty) :
    keyedStep parent oldC j d = [.remove parent c, .insert parent d j] := by
  rw [keyedStep, hk]
  split
  next k2 heq =>
    injection heq with heq
    subst heq
    split
    next c3 heq2 =>
      rw [hc] at heq2
      injection heq2 with heq2
      subst heq2
      rw [if_pos hty]
    next heq2 =>
      rw [hc] at heq2
      cases heq2
  next heq => cases heq

/-- Step behaviour for a key match with equal types: recurse, then emit a
MOVE when the old position differs from the target index. -/
theorem keyedStep_match {parent : VNode} {oldC : List VNode} {j : Nat}
    {d c : VNode} {k : PVal} (hk : d.key = some k)
    (hc : keyLookup oldC k = some c) (hty : c.ty = d.ty) :
    keyedStep parent oldC j d
      = diffNonNull c d ++
          (if (indexOfId oldC 0 c.id).getD 0 ≠ j then
             [.move parent c ((indexOfId oldC 0 c.id).getD 0) j]
           else []) := by
  rw [keyedStep, hk]
  split
  next k2 heq =>
    injection heq with heq
    subst heq
    split
    next c3 heq2 =>
      rw [hc] at heq2
      injection heq2 with heq2
      subst heq2
      rw [if_neg (fun hh => hh hty)]
    next heq2 =>
      rw [hc] at heq2
      cases heq2
  next heq => cases heq

/-- Membership transfer from the j-th step into the keyed pass. -/
theorem keyedChildren_mem_of_step (parent : VNode) (oldC : List VNode) :
    ∀ (j : Nat) (j0 : Nat) (ds : List VNode) (d : VNode),
      ds.get? j = some d →
      ∀ q ∈ keyedStep parent oldC (j0 + j) d, q ∈ keyedChildren parent oldC j0 ds := by
  intro j
  induction j with
  | zero =>
    intro j0 ds d hd q hq
    cases ds with
    | nil => simp at hd
    | cons d0 ds2 =>
      simp only [List.get?] at hd
      injection hd with hd
      subst hd
      rw [keyedChildren_cons]
      exact List.mem_append_left _ hq
  | succ j ih =>
    intro j0 ds d hd q hq
    cases ds with
    | nil => simp at hd
    | cons d0 ds2 =>
      simp only [List.get?] at hd
      rw [keyedChildren_cons]
      apply List.mem_append_right
      exact ih (j0 + 1) ds2 d hd q (by rw [show j0 + 1 + j = j0 + (j + 1) by omega]; exact hq)

/-! Shape decomposition of the diff output segments. -/

/-- Every patch of the SET_PROP pass is a SET_PROP on the target. -/
theorem mem_setPropPatches {t : VNode} {a b : List (String × PVal)} {q : Patch}
    (h : q ∈ setPropPatches t a b) : ∃ k v, q = .setProp t k v := by
  rw [setPropPatches, List.mem_filterMap] at h
  obtain ⟨e, _, he⟩ := h
  by_cases hcond : propLookup a e.1 = some e.2
  · rw [if_pos hcond] at he
    cases he
  · rw [if_neg hcond] at he
    injection he with he
    exact ⟨e.1, e.2, he.symm⟩

/-- Every patch of the REMOVE_PROP pass is a REMOVE_PROP on the target. -/
theorem mem_removePropPatches {t : VNode} {a b : List (String × PVal)} {q : Patch}
    (h : q ∈ removePropPatches t a b) : ∃ k, q = .removeProp t k := by
  rw [removePropPatches, List.mem_filterMap] at h
  obtain ⟨e, _, he⟩ := h
  by_cases hcond : (propLookup b e.1).isSome = true
  · rw [if_pos hcond] at he
    cases he
  · rw [if_neg hcond] at he
    injection he with he
    exact ⟨e.1, he.symm⟩

/-- Every patch of the cleanup pass is a REMOVE of an old child. -/
theorem mem_removesUnused_shape {parent : VNode} {oldC newC : List VNode} {q : Patch}
    (h : q ∈ removesUnused parent oldC newC) : ∃ c ∈ oldC, q = .remove parent c := by
  rw [removesUnused, List.mem_map] at h
  obtain ⟨c, hcf, he⟩ := h
  exact ⟨c, (List.mem_filter.mp hcf).1, he.symm⟩

/-- A `bothText` success determines both children values. -/
theorem bothText_eq_some {x y : VChildren} {s t : String}
    (h : bothText x y = some (s, t)) : x = .ctext s ∧ y = .ctext t := by
  cases x <;> cases y <;> simp [bothText] at h <;> simp [h.1, h.2]

/-- Every patch of a keyed step is a REMOVE, an INSERT of the next child at
the target index, a MOVE to the target index, or belongs to the recursive
diff of a same-type key-matched pair. -/
theorem mem_keyedStep {parent : VNode} {oldC : List VNode} {j : Nat} {d : VNode}
    {q : Patch} (h : q ∈ keyedStep parent oldC j d) :
    (∃ c ∈ oldC, q = .remove parent c) ∨ q = .insert parent d j
      ∨ (∃ c f, c ∈ oldC ∧ q = .move parent c f j)
      ∨ (∃ c, c ∈ oldC ∧ c.ty = d.ty ∧ q ∈ diffNonNull c d) := by
  cases hk : d.key with
  | none =>
    rw [keyedStep_nokey hk] at h
    simp only [List.mem_singleton] at h
    exact Or.inr (Or.inl h)
  | some k =>
    cases hc : keyLookup oldC k with
    | none =>
      rw [keyedStep_nomatch hk hc] at h
      simp only [List.mem_singleton] at h
      exact Or.inr (Or.inl h)
    | some c =>
      have hcm := keyLookup_mem hc
      by_cases hty : c.ty = d.ty
      · rw [keyedStep_match hk hc hty] at h
        rcases List.mem_append.mp h with h | h
        · exact Or.inr (Or.inr (Or.inr ⟨c, hcm, hty, h⟩))
        · by_cases hmv : (indexOfId oldC 0 c.id).getD 0 ≠ j
          · rw [if_pos hmv] at h
            simp only [List.mem_singleton] at h
            exact Or.inr (Or.inr (Or.inl ⟨c, _, hcm, h⟩))
          · rw [if_neg hmv] at h
            cases h
      · rw [keyedStep_tymismatch hk hc hty] at h
        rcases List.mem_cons.mp h with h | h
        · exact Or.inl ⟨c, hcm, h⟩
        · simp only [List.mem_singleton] at h
          exact Or.inr (Or.inl h)

/-- Every patch of the keyed pass comes from the step of some next child. -/
theorem mem_keyedChildren {parent : VNode} {oldC : List VNode} {q : Patch} :
    ∀ {ds : List VNode} {j : Nat}, q ∈ keyedChildren parent oldC j ds →
      ∃ d ∈ ds, ∃ j2, q ∈ keyedStep parent oldC j2 d := by
  intro ds
  induction ds with
  | nil =>
    intro j h
    rw [keyedChildren_nil] at h
    cases h
  | cons d ds2 ih =>
    intro j h
    rw [keyedChildren_cons] at h
    rcases List.mem_append.mp h with h | h
    · exact ⟨d, List.mem_cons_self _ _, j, h⟩
    · obtain ⟨d2, hd2, j2, hq⟩ := ih h
      exact ⟨d2, List.mem_cons_of_mem _ hd2, j2, hq⟩

/-- Every patch of the index pass is an INSERT, a REMOVE, or belongs to the
recursive diff of a same-type positionally matched pair. -/
theorem mem_indexChildren {parent : VNode} {q : Patch} :
    ∀ {cs ds : List VNode} {i : Nat}, q ∈ indexChildren parent i cs ds →
      (∃ c ∈ cs, q = .remove parent c) ∨ (∃ d i2, d ∈ ds ∧ q = .insert parent d i2)
        ∨ (∃ c d, c ∈ cs ∧ d ∈ ds ∧ c.ty = d.ty ∧ q ∈ diffNonNull c d) := by
  intro cs
  induction cs with
  | nil =>
    intro ds
    induction ds with
    | nil =>
      intro i h
      rw [indexChildren] at h
      cases h
    | cons d ds2 ihd =>
      intro i h
      rw [indexChildren] at h
      rcases List.mem_cons.mp h with h | h
      · exact Or.inr (Or.inl ⟨d, i, List.mem_cons_self _ _, h⟩)
      · rcases ihd h with h2 | h2 | h2
        · obtain ⟨c, hc, _⟩ := h2
          cases hc
        · obtain ⟨d2, i2, hd2, he⟩ := h2
          exact Or.inr (Or.inl ⟨d2, i2, List.mem_cons_of_mem _ hd2, he⟩)
        · obtain ⟨c, _, hc, _⟩ := h2
          cases hc
  | cons c cs2 ihc =>
    intro ds
    cases ds with
    | nil =>
      intro i h
      rw [indexChildren] at h
      rcases List.mem_cons.mp h with h | h
      · exact Or.inl ⟨c, List.mem_cons_self _ _, h⟩
      · rcases ihc h with h2 | h2 | h2
        · obtain ⟨c2, hc2, he⟩ := h2
          exact Or.inl ⟨c2, List.mem_cons_of_mem _ hc2, he⟩
        · obtain ⟨d2, i2, hd2, _⟩ := h2
          cases hd2
        · obtain ⟨c2, d2, _, hd2, _⟩ := h2
          cases hd2
    | cons d ds2 =>
      intro i h
      rw [indexChildren] at h
      rcases List.mem_append.mp h with h | h
      · by_cases hty : c.ty ≠ d.ty
        · rw [if_pos hty] at h
          rcases List.mem_cons.mp h with h | h
          · exact Or.inl ⟨c, List.mem_cons_self _ _, h⟩
          · simp only [List.mem_singleton] at h
            exact Or.inr (Or.inl ⟨d, i, List.mem_cons_self _ _, h⟩)
        · rw [if_neg hty] at h
          push_neg at hty
          exact Or.inr (Or.inr ⟨c, d, List.mem_cons_self _ _, List.mem_cons_self _ _, hty, h⟩)
      · rcases ihc h with h2 | h2 | h2
        · obtain ⟨c2, hc2, he⟩ := h2
          exact Or.inl ⟨c2, List.mem_cons_of_mem _ hc2, he⟩
        · obtain ⟨d2, i2, hd2, he⟩ := h2
          exact Or.inr (Or.inl ⟨d2, i2, List.mem_cons_of_mem _ hd2, he⟩)
        · obtain ⟨c2, d2, hc2, hd2, hty2, hq2⟩ := h2
          exact Or.inr (Or.inr ⟨c2, d2, List.mem_cons_of_mem _ hc2,
            List.mem_cons_of_mem _ hd2, hty2, hq2⟩)

/-- A VNode has positive size. -/
theorem sizeOf_vnode_pos (p : VNode) : 0 < sizeOf p := by
  cases p with
  | mk t pr c k i =>
    simp only [VNode.mk.sizeOf_spec]
    omega

/-- Children of a node are smaller than the node. -/
theorem sizeOf_mem_childList_lt {p c : VNode} (h : c ∈ childList p.children) :
    sizeOf c < sizeOf p :=
  lt_trans (List.sizeOf_lt_of_mem h) (sizeOf_childList_lt p)

/-- Every UPDATE patch anywhere in a diff pairs two nodes of equal type:
the engine only ever recurses into (and hence re-keys) same-type pairs, so
an in-place reuse across a type change never happens. -/
theorem update_ty_eq_bounded :
    ∀ N : Nat, ∀ p n a b : VNode, sizeOf p ≤ N →
      Patch.update a b ∈ diffNonNull p n → a.ty = b.ty := by
  intro N
  induction N with
  | zero =>
    intro p n a b hle _
    exfalso
    have := sizeOf_vnode_pos p
    omega
  | succ N ih =>
    intro p n a b hle h
    by_cases hty : p.ty = n.ty
    · cases hbt : bothText p.children n.children with
      | some st =>
        obtain ⟨s, t⟩ := st
        obtain ⟨hp, hn⟩ := bothText_eq_some hbt
        rw [diffNonNull_text hty hp hn] at h
        rcases List.mem_append.mp h with h | h
        · by_cases hst : s ≠ t
          · rw [if_pos hst] at h
            simp only [List.mem_singleton] at h
            cases h
          · rw [if_neg hst] at h
            cases h
        · simp only [List.mem_singleton] at h
          injection h with h1 h2
          rw [h1, h2]
          exact hty
      | none =>
        rw [diffNonNull_main hty hbt] at h
        rcases List.mem_append.mp h with h | h
        · rcases List.mem_append.mp h with h | h
          · rcases List.mem_append.mp h with h | h
            · obtain ⟨k, v, he⟩ := mem_setPropPatches h
              cases he
            · obtain ⟨k, he⟩ := mem_removePropPatches h
              cases he
          · by_cases hkk : hasAnyKey (childList p.children) (childList n.children) = true
            · rw [if_pos hkk] at h
              rcases List.mem_append.mp h with h | h
              · obtain ⟨d, _, j2, hstep⟩ := mem_keyedChildren h
                rcases mem_keyedStep hstep with h2 | h2 | h2 | h2
                · obtain ⟨c, _, he⟩ := h2
                  cases he
                · cases h2
                · obtain ⟨c, f, _, he⟩ := h2
                  cases he
                · obtain ⟨c, hcm, hcd, hq⟩ := h2
                  exact ih c d a b (by
                    have := sizeOf_mem_childList_lt hcm
                    omega) hq
              · obtain ⟨c, _, he⟩ := mem_removesUnused_shape h
                cases he
            · rw [if_neg hkk] at h
              rcases mem_indexChildren h with h2 | h2 | h2
              · obtain ⟨c, _, he⟩ := h2
                cases he
              · obtain ⟨d, i2, _, he⟩ := h2
                cases he
              · obtain ⟨c, d, hcm, _, hcd, hq⟩ := h2
                exact ih c d a b (by
                  have := sizeOf_mem_childList_lt hcm
                  omega) hq
        · simp only [List.mem_singleton] at h
          injection h with h1 h2
          rw [h1, h2]
          exact hty
    · rw [diffNonNull_ty_ne hty] at h
      simp only [List.mem_singleton] at h
      cases h

/-- Unbounded form of the UPDATE type-equality invariant. -/
theorem update_ty_eq {p n a b : VNode}
    (h : Patch.update a b ∈ diffNonNull p n) : a.ty = b.ty :=
  update_ty_eq_bounded (sizeOf p) p n a b le_rfl h

/-- Membership transfer from the keyed pass (or its cleanup) into the
diff of the parent pair. -/
theorem mem_of_keyed {p n : VNode} {q : Patch} (hty : p.ty = n.ty)
    (hbt : bothText p.children n.children = none)
    (hk : hasAnyKey (childList p.children) (childList n.children) = true)
    (hq : q ∈ keyedChildren p (childList p.children) 0 (childList n.children)
        ∨ q ∈ removesUnused p (childList p.children) (childList n.children)) :
    q ∈ diffNonNull p n := by
  rw [diffNonNull_main hty hbt]
  apply List.mem_append_left
  apply List.mem_append_right
  rw [if_pos hk]
  rcases hq with hq | hq
  · exact List.mem_append_left _ hq
  · exact List.mem_append_right _ hq

/-- Membership transfer from the index pass into the diff of the parent
pair. -/
theorem mem_of_index {p n : VNode} {q : Patch} (hty : p.ty = n.ty)
    (hbt : bothText p.children n.children = none)
    (hk : hasAnyKey (childList p.children) (childList n.children) = false)
    (hq : q ∈ indexChildren p 0 (childList p.children) (childList n.children)) :
    q ∈ diffNonNull p n := by
  rw [diffNonNull_main hty hbt]
  apply List.mem_append_left
  apply List.mem_append_right
  rw [hk]
  simpa using hq

/-- Claim C2: a type change at a matched position is never reconciled in
place.  (1) At the root, `diff` short-circuits to a single REPLACE of the
subtree.  (2) At an index-matched position with differing types, the
output contains REMOVE of the old child and INSERT of the new one at that
index.  (3) Likewise at a key-matched position.  (4-5) Recursion descends
only into same-type matched pairs, whose recursive patches are contained
in the parent diff (so conjuncts 2-3 apply at every depth).  (6) Every
UPDATE patch in any diff pairs nodes of equal type; since recursing into
a pair always emits its trailing UPDATE, the engine never recursed into a
type-mismatched pair. -/
theorem claim_C2_type_change_never_reused :
    (∀ p n : VNode, p.ty ≠ n.ty → diff (some p) (some n) = [.replace (some n)])
    ∧ (∀ (p n : VNode) (i : Nat) (c d : VNode),
        p.ty = n.ty → bothText p.children n.children = none →
        hasAnyKey (childList p.children) (childList n.children) = false →
        (childList p.children).get? i = some c →
        (childList n.children).get? i = some d →
        c.ty ≠ d.ty →
        Patch.remove p c ∈ diffNonNull p n ∧ Patch.insert p d i ∈ diffNonNull p n)
    ∧ (∀ (p n : VNode) (j : Nat) (d c : VNode) (k : PVal),
        p.ty = n.ty → bothText p.children n.children = none →
        hasAnyKey (childList p.children) (childList n.children) = true →
        (childList n.children).get? j = some d →
        d.key = some k → keyLookup (childList p.children) k = some c →
        c.ty ≠ d.ty →
        Patch.remove p c ∈ diffNonNull p n ∧ Patch.insert p d j ∈ diffNonNull p n)
    ∧ (∀ (p n : VNode) (i : Nat) (c d : VNode),
        p.ty = n.ty → bothText p.children n.children = none →
        hasAnyKey (childList p.children) (childList n.children) = false →
        (childList p.children).get? i = some c →
        (childList n.children).get? i = some d →
        c.ty = d.ty →
        ∀ q ∈ diffNonNull c d, q ∈ diffNonNull p n)
    ∧ (∀ (p n : VNode) (j : Nat) (d c : VNode) (k : PVal),
        p.ty = n.ty → bothText p.children n.children = none →
        hasAnyKey (childList p.children) (childList n.children) = true →
        (childList n.children).get? j = some d →
        d.key = some k → keyLookup (childList p.children) k = some c →
        c.ty = d.ty →
        ∀ q ∈ diffNonNull c d, q ∈ diffNonNull p n)
    ∧ (∀ (x y : Option VNode) (a b : VNode),
        Patch.update a b ∈ diff x y → a.ty = b.ty) := by
  refine ⟨?_, ?_, ?_, ?_, ?_, ?_⟩
  · intro p n hne
    rw [diff, diffNonNull_ty_ne hne]
  · intro p n i c d hty hbt hk hc hd htyne
    have hm := indexChildren_mem_typechange p i 0 _ _ c d hc hd htyne
    rw [Nat.zero_add] at hm
    exact ⟨mem_of_index hty hbt hk hm.1, mem_of_index hty hbt hk hm.2⟩
  · intro p n j d c k hty hbt hk hd hdk hlk htyne
    have hstep := @keyedStep_tymismatch p _ j _ _ _ hdk hlk htyne
    constructor
    · apply mem_of_keyed hty hbt hk
      left
      apply keyedChildren_mem_of_step p _ j 0 _ d hd
      rw [Nat.zero_add, hstep]
      exact List.mem_cons_self _ _
    · apply mem_of_keyed hty hbt hk
      left
      apply keyedChildren_mem_of_step p _ j 0 _ d hd
      rw [Nat.zero_add, hstep]
      exact List.mem_cons_of_mem _ (List.mem_singleton.mpr rfl)
  · intro p n i c d hty hbt hk hc hd htyeq q hq
    exact mem_of_index hty hbt hk (indexChildren_mem_recurse p i 0 _ _ c d hc hd htyeq q hq)
  · intro p n j d c k hty hbt hk hd hdk hlk htyeq q hq
    apply mem_of_keyed hty hbt hk
    left
    apply keyedChildren_mem_of_step p _ j 0 _ d hd
    rw [Nat.zero_add, keyedStep_match hdk hlk htyeq]
    exact List.mem_append_left _ hq
  · intro x y a b h
    cases x with
    | none =>
      cases y with
      | none => cases h
      | some n =>
        rw [diff] at h
        simp only [List.mem_singleton] at h
        cases h
    | some p =>
      cases y with
      | none =>
        rw [diff] at h
        simp only [List.mem_singleton] at h
        cases h
      | some n => exact update_ty_eq h

/-- Concrete nodes for the C2 witness. -/
def w2a : VNode := .mk "div" none .cnone none 300

def w2b : VNode := .mk "span" none .cnone none 301

def w2c : VNode := .mk "span" none .cnone none 302

def w2d : VNode := .mk "em" none .cnone none 303

def w2p : VNode := .mk "div" none (.cnodes [w2c]) none 304

def w2q : VNode := .mk "div" none (.cnodes [w2d]) none 305

def w2e : VNode := .mk "span" none .cnone (some (.str "a")) 306

def w2f : VNode := .mk "em" none .cnone (some (.str "a")) 307

def w2r : VNode := .mk "div" none (.cnodes [w2e]) none 308

def w2s : VNode := .mk "div" none (.cnodes [w2f]) none 309

def w2t : VNode := .mk "p" none (.ctext "x") none 310

def w2u : VNode := .mk "p" none (.ctext "x") none 311

def w2pp : VNode := .mk "div" none (.cnodes [w2t]) none 312

def w2qq : VNode := .mk "div" none (.cnodes [w2u]) none 313

def w2g : VNode := .mk "p" none (.ctext "x") (some (.str "b")) 314

def w2h : VNode := .mk "p" none (.ctext "x") (some (.str "b")) 315

def w2rr : VNode := .mk "div" none (.cnodes [w2g]) none 316

def w2ss : VNode := .mk "div" none (.cnodes [w2h]) none 317

/-- The recursive diff of the concrete same-type text pair. -/
theorem w2tu_diff : diffNonNull w2t w2u = [.update w2t w2u] := by
  rw [diffNonNull_text (show w2t.ty = w2u.ty from rfl)
    (show w2t.children = .ctext "x" from rfl)
    (show w2u.children = .ctext "x" from rfl)]
  simp

/-- The recursive diff of the concrete same-type keyed text pair. -/
theorem w2gh_diff : diffNonNull w2g w2h = [.update w2g w2h] := by
  rw [diffNonNull_text (show w2g.ty = w2h.ty from rfl)
    (show w2g.children = .ctext "x" from rfl)
    (show w2h.children = .ctext "x" from rfl)]
  simp

/-- Witness for C2 at concrete trees: root replace, index REMOVE+INSERT,
keyed REMOVE+INSERT, recursion containment both ways, and the UPDATE
type-equality at a concrete pair. -/
theorem claim_C2_type_change_witness :
    diff (some w2a) (some w2b) = [.replace (some w2b)]
      ∧ (Patch.remove w2p w2c ∈ diffNonNull w2p w2q
          ∧ Patch.insert w2p w2d 0 ∈ diffNonNull w2p w2q)
      ∧ (Patch.remove w2r w2e ∈ diffNonNull w2r w2s
          ∧ Patch.insert w2r w2f 0 ∈ diffNonNull w2r w2s)
      ∧ Patch.update w2t w2u ∈ diffNonNull w2pp w2qq
      ∧ Patch.update w2g w2h ∈ diffNonNull w2rr w2ss
      ∧ w2t.ty = w2u.ty := by
  obtain ⟨h1, h2, h3, h4, h5, h6⟩ := claim_C2_type_change_never_reused
  refine ⟨h1 w2a w2b (by decide), ?_, ?_, ?_, ?_, ?_⟩
  · exact h2 w2p w2q 0 w2c w2d rfl rfl rfl rfl rfl (by decide)
  · exact h3 w2r w2s 0 w2f w2e (.str "a") rfl rfl rfl rfl rfl rfl (by decide)
  · exact h4 w2pp w2qq 0 w2t w2u rfl rfl rfl rfl rfl rfl (.update w2t w2u)
      (by rw [w2tu_diff]; exact List.mem_singleton.mpr rfl)
  · exact h5 w2rr w2ss 0 w2h w2g (.str "b") rfl rfl rfl rfl rfl rfl rfl
      (.update w2g w2h) (by rw [w2gh_diff]; exact List.mem_singleton.mpr rfl)
  · exact h6 (some w2pp) (some w2qq) w2t w2u
      (by
        rw [diff]
        exact h4 w2pp w2qq 0 w2t w2u rfl rfl rfl rfl rfl rfl (.update w2t w2u)
          (by rw [w2tu_diff]; exact List.mem_singleton.mpr rfl))

/-- Claim C10: once keyed reconciliation is entered, children are matched
only by key, never by position.  A next child with a null key, or whose
key matches no previous child, is emitted as an INSERT at its index; a
previous child never matched by key (null key, or no next child has its
key) is emitted as a REMOVE — even when an unkeyed child of the same type
sits at the same index on both sides. -/
theorem claim_C10_keyed_no_positional_reuse :
    (∀ (p n : VNode) (j : Nat) (d : VNode),
        p.ty = n.ty → bothText p.children n.children = none →
        hasAnyKey (childList p.children) (childList n.children) = true →
        (childList n.children).get? j = some d →
        (d.key = none ∨ ∀ c ∈ childList p.children, c.key ≠ d.key) →
        Patch.insert p d j ∈ diffNonNull p n)
    ∧ (∀ (p n : VNode) (c : VNode),
        p.ty = n.ty → bothText p.children n.children = none →
        hasAnyKey (childList p.children) (childList n.children) = true →
        c ∈ childList p.children →
        nodupNat ((childList p.children).map VNode.id) = true →
        (c.key = none ∨ ∀ d ∈ childList n.children, d.key ≠ c.key) →
        Patch.remove p c ∈ diffNonNull p n) := by
  constructor
  · intro p n j d hty hbt hk hd hnomatch
    have hstep : keyedStep p (childList p.children) j d = [.insert p d j] := by
      cases hkey : d.key with
      | none => exact keyedStep_nokey hkey
      | some k =>
        rcases hnomatch with hnone | hall
        · rw [hkey] at hnone
          cases hnone
        · refine keyedStep_nomatch hkey (keyLookup_eq_none ?_)
          intro c hcm
          rw [← hkey]
          exact hall c hcm
    apply mem_of_keyed hty hbt hk
    left
    apply keyedChildren_mem_of_step p _ j 0 _ d hd
    rw [Nat.zero_add, hstep]
    exact List.mem_singleton.mpr rfl
  · intro p n c hty hbt hk hcm hnd hun
    exact mem_of_keyed hty hbt hk (Or.inr (mem_removesUnused hcm hnd hun))

/-- Concrete trees for the C10 witness: a keyed child plus an unkeyed child
of the same type at the same index on both sides. -/
def w10a : VNode := .mk "span" none .cnone (some (.str "a")) 320

def w10u : VNode := .mk "span" none .cnone none 321

def w10b : VNode := .mk "span" none .cnone (some (.str "a")) 322

def w10v : VNode := .mk "span" none .cnone none 323

def w10p : VNode := .mk "div" none (.cnodes [w10a, w10u]) none 324

def w10n : VNode := .mk "div" none (.cnodes [w10b, w10v]) none 325

/-- Witness for C10: the structurally identical unkeyed sibling is inserted
anew and the old one removed rather than reused in place. -/
theorem claim_C10_keyed_no_positional_reuse_witness :
    Patch.insert w10p w10v 1 ∈ diffNonNull w10p w10n
      ∧ Patch.remove w10p w10u ∈ diffNonNull w10p w10n := by
  obtain ⟨h1, h2⟩ := claim_C10_keyed_no_positional_reuse
  constructor
  · exact h1 w10p w10n 1 w10v rfl rfl rfl rfl (Or.inl rfl)
  · exact h2 w10p w10n w10u rfl rfl rfl
      (List.mem_cons_of_mem _ (List.mem_cons_self _ _)) (by decide) (Or.inl rfl)

/-! Structural identity and tree well-formedness, for the re-keying claim. -/

/-- Size bound for the children of a node. -/
theorem sizeOf_children_lt (a : VNode) : sizeOf a.children < sizeOf a := by
  cases a with
  | mk t pr c k i =>
    simp only [VNode.children, VNode.mk.sizeOf_spec]
    omega

mutual
/-- Structural identity of two trees, spec-side ("structurally identical
but freshly constructed"): same type, same props object, same key, and the
same children shape at every position — ids are unconstrained. -/
def sameStruct (a b : VNode) : Bool :=
  (a.ty == b.ty) && (a.props == b.props) && (a.key == b.key)
    && sameChildren a.children b.children
  termination_by sizeOf a
  decreasing_by
    exact sizeOf_children_lt a

/-- Structural identity of two children values. -/
def sameChildren : VChildren → VChildren → Bool
  | .cnone, .cnone => true
  | .cnone, .ctext _ => false
  | .cnone, .cnodes _ => false
  | .ctext _, .cnone => false
  | .ctext s, .ctext t => s == t
  | .ctext _, .cnodes _ => false
  | .cnodes _, .cnone => false
  | .cnodes _, .ctext _ => false
  | .cnodes l, .cnodes m => sameList l m
  termination_by x _ => sizeOf x

/-- Pointwise structural identity of two sibling lists. -/
def sameList : List VNode → List VNode → Bool
  | [], [] => true
  | [], _ :: _ => false
  | _ :: _, [] => false
  | a :: as2, b :: bs2 => sameStruct a b && sameList as2 bs2
  termination_by l _ => sizeOf l
end

/-- Executable pairwise distinctness of keys. -/
def nodupPVal : List PVal → Bool
  | [] => true
  | x :: xs => !(xs.contains x) && nodupPVal xs

/-- Executable pairwise distinctness of prop names. -/
def nodupStr : List String → Bool
  | [] => true
  | x :: xs => !(xs.contains x) && nodupStr xs

/-- The non-null keys of a sibling list. -/
def keysOfChildren (l : List VNode) : List PVal := l.filterMap VNode.key

/-- A props object has distinct names, as JS objects always do. -/
def propsOk : Option Props → Bool
  | none => true
  | some pr => nodupStr (pr.entries.map Prod.fst)

/-- Well-formedness of one sibling list: distinct identities (the rendering
of JS reference identity), and — whenever any child is keyed — every child
keyed with pairwise-distinct keys.  The key conditions are exactly what
the re-keying law needs; mixed keyed/unkeyed lists and duplicate keys
break it (see the C1 counterexample). -/
def sibsOk (l : List VNode) : Bool :=
  nodupNat (l.map VNode.id)
    && (!(l.any fun c => c.key.isSome)
        || (l.all (fun c => c.key.isSome) && nodupPVal (keysOfChildren l)))

mutual
/-- Recursive well-formedness of a tree (a text or childless node has the
empty sibling list, which is trivially well formed). -/
def goodTree (v : VNode) : Bool :=
  propsOk v.props && sibsOk (childList v.children)
    && goodList (childList v.children)
  termination_by sizeOf v
  decreasing_by
    exact sizeOf_childList_lt v

/-- Well-formedness of every tree in a list. -/
def goodList : List VNode → Bool
  | [] => true
  | c :: cs => goodTree c && goodList cs
  termination_by l => sizeOf l
end

mutual
/-- The expected diff of two structurally identical trees: one trailing
UPDATE per visited node, in traversal order (a text or childless node
contributes just its own trailing UPDATE). -/
def idUpdates (a b : VNode) : List Patch :=
  idUpdatesList (childList a.children) (childList b.children) ++ [.update a b]
  termination_by sizeOf a
  decreasing_by
    exact sizeOf_childList_lt a

/-- Pointwise expected diffs of two sibling lists. -/
def idUpdatesList : List VNode → List VNode → List Patch
  | [], _ => []
  | _ :: _, [] => []
  | a :: as2, b :: bs2 => idUpdates a b ++ idUpdatesList as2 bs2
  termination_by l _ => sizeOf l
end

/-- Field-wise content of structural identity. -/
theorem sameStruct_parts {a b : VNode} (h : sameStruct a b = true) :
    a.ty = b.ty ∧ a.props = b.props ∧ a.key = b.key
      ∧ sameChildren a.children b.children = true := by
  rw [sameStruct] at h
  simp only [Bool.and_eq_true, beq_iff_eq] at h
  exact ⟨h.1.1.1, h.1.1.2, h.1.2, h.2⟩

/-- Pointwise access across structurally identical sibling lists. -/
theorem sameList_get {l : List VNode} :
    ∀ {m : List VNode}, sameList l m = true →
      ∀ j c, l.get? j = some c → ∃ d, m.get? j = some d ∧ sameStruct c d = true := by
  induction l with
  | nil =>
    intro m h j c hc
    simp at hc
  | cons a as2 ih =>
    intro m h j c hc
    cases m with
    | nil => rw [sameList] at h; cases h
    | cons b bs2 =>
      rw [sameList, Bool.and_eq_true] at h
      cases j with
      | zero =>
        simp only [List.get?] at hc
        injection hc with hc
        subst hc
        exact ⟨b, rfl, h.1⟩
      | succ j =>
        simp only [List.get?] at hc ⊢
        exact ih h.2 j c hc

/-- Reverse pointwise access across structurally identical sibling lists. -/
theorem sameList_get_rev {l : List VNode} :
    ∀ {m : List VNode}, sameList l m = true →
      ∀ j d, m.get? j = some d → ∃ c, l.get? j = some c ∧ sameStruct c d = true := by
  induction l with
  | nil =>
    intro m h j d hd
    cases m with
    | nil => simp at hd
    | cons b bs2 => rw [sameList] at h; cases h
  | cons a as2 ih =>
    intro m h j d hd
    cases m with
    | nil => rw [sameList] at h; cases h
    | cons b bs2 =>
      rw [sameList, Bool.and_eq_true] at h
      cases j with
      | zero =>
        simp only [List.get?] at hd
        injection hd with hd
        subst hd
        exact ⟨a, rfl, h.1⟩
      | succ j =>
        simp only [List.get?] at hd ⊢
        exact ih h.2 j d hd

/-- Looking up a present prop key yields a value. -/
theorem propLookup_isSome_of_mem {e : List (String × PVal)} {kv : String × PVal}
    (h : kv ∈ e) : (propLookup e kv.1).isSome = true := by
  induction e with
  | nil => cases h
  | cons f fs ih =>
    rcases List.mem_cons.mp h with h | h
    · subst h
      simp [propLookup]
    · by_cases hf : f.1 = kv.1
      · simp [propLookup, hf]
      · simp only [propLookup, hf, if_false]
        exact ih h

/-- With distinct names, every entry is found at its own value. -/
theorem propLookup_self {e : List (String × PVal)}
    (hnd : nodupStr (e.map Prod.fst) = true) :
    ∀ kv ∈ e, propLookup e kv.1 = some kv.2 := by
  induction e with
  | nil => intro kv h; cases h
  | cons f fs ih =>
    rw [List.map_cons, nodupStr, Bool.and_eq_true] at hnd
    intro kv h
    rcases List.mem_cons.mp h with h | h
    · subst h
      simp [propLookup]
    · have hne : ¬ f.1 = kv.1 := by
        intro he
        have : kv.1 ∈ fs.map Prod.fst := List.mem_map_of_mem _ h
        rw [← he] at this
        simp [this] at hnd
      simp only [propLookup, hne, if_false]
      exact ih hnd.2 kv h

/-- Diffing identical props (with distinct names) yields no SET_PROP. -/
theorem setPropPatches_self {t : VNode} {e : List (String × PVal)}
    (hnd : nodupStr (e.map Prod.fst) = true) : setPropPatches t e e = [] := by
  rw [setPropPatches, List.filterMap_eq_nil]
  intro kv h
  rw [if_pos (propLookup_self hnd kv h)]

/-- Diffing identical props yields no REMOVE_PROP. -/
theorem removePropPatches_self {t : VNode} {e : List (String × PVal)} :
    removePropPatches t e e = [] := by
  rw [removePropPatches, List.filterMap_eq_nil]
  intro kv h
  rw [if_pos (propLookup_isSome_of_mem h)]

/-- When the list has pairwise-distinct keys, the key map finds each keyed
child itself. -/
theorem keyLookup_unique {l : List VNode}
    (hnd : nodupPVal (keysOfChildren l) = true) :
    ∀ {c : VNode} {k : PVal}, c ∈ l → c.key = some k → keyLookup l k = some c := by
  induction l with
  | nil => intro c k h; cases h
  | cons a as2 ih =>
    intro c k hm hk
    rcases List.mem_cons.mp hm with h | h
    · subst h
      have hnone : keyLookup as2 k = none := by
        apply keyLookup_eq_none
        intro c2 hc2 hc2k
        have hmem : k ∈ keysOfChildren as2 := by
          rw [keysOfChildren, List.mem_filterMap]
          exact ⟨c2, hc2, hc2k⟩
        rw [keysOfChildren, List.filterMap_cons, hk] at hnd
        rw [nodupPVal, Bool.and_eq_true] at hnd
        simp at hnd
        rcases hnd with ⟨hnd1, _⟩
        exact hnd1 c2 hc2 hc2k
      rw [keyLookup, hnone, if_pos hk]
    · have hsub : nodupPVal (keysOfChildren as2) = true := by
        rw [keysOfChildren, List.filterMap_cons] at hnd
        cases ha : a.key with
        | none => rw [ha] at hnd; exact hnd
        | some k2 =>
          rw [ha, nodupPVal, Bool.and_eq_true] at hnd
          exact hnd.2
      rw [keyLookup, ih hsub h hk]

/-- A position with no occurrence of an identity. -/
theorem indexOfId_eq_none {l : List VNode} {t : Nat}
    (h : ∀ x ∈ l, x.id ≠ t) : ∀ s, indexOfId l s t = none := by
  induction l with
  | nil => intro s; rfl
  | cons a as2 ih =>
    intro s
    rw [indexOfId, ih fun x hx => h x (List.mem_cons_of_mem _ hx)]
    simp [h a (List.mem_cons_self _ _)]

/-- With distinct identities, the index map finds each child at its own
position. -/
theorem indexOfId_nodup {l : List VNode} :
    nodupNat (l.map VNode.id) = true →
      ∀ {j : Nat} {c : VNode}, l.get? j = some c →
        ∀ s, indexOfId l s c.id = some (s + j) := by
  induction l with
  | nil =>
    intro _ j c hc
    simp at hc
  | cons a as2 ih =>
    intro hnd j c hc s
    rw [List.map_cons, nodupNat, Bool.and_eq_true] at hnd
    cases j with
    | zero =>
      simp only [List.get?] at hc
      injection hc with hc
      subst hc
      have hnone : indexOfId as2 (s + 1) a.id = none := by
        apply indexOfId_eq_none
        intro x hx he
        simp at hnd
        exact hnd.1 x hx he
      rw [indexOfId, hnone]
      simp
    | succ j =>
      simp only [List.get?] at hc
      have hpre := ih hnd.2 hc (s + 1)
      rw [indexOfId, hpre]
      show some (s + 1 + j) = some (s + (j + 1))
      congr 1
      omega

/-- Well-formedness of a list gives well-formedness of its members. -/
theorem goodList_mem {l : List VNode} (h : goodList l = true) :
    ∀ c ∈ l, goodTree c = true := by
  induction l with
  | nil => intro c hc; cases hc
  | cons a as2 ih =>
    rw [goodList, Bool.and_eq_true] at h
    intro c hc
    rcases List.mem_cons.mp hc with hc | hc
    · rw [hc]; exact h.1
    · exact ih h.2 c hc

/-- Key presence transfers across structurally identical lists. -/
theorem sameList_any_key {l m : List VNode} (hs : sameList l m = true)
    (h : m.any (fun c => c.key.isSome) = true) :
    l.any (fun c => c.key.isSome) = true := by
  rw [List.any_eq_true] at h ⊢
  obtain ⟨d, hdm, hk⟩ := h
  obtain ⟨i, hdi⟩ := List.get?_of_mem hdm
  obtain ⟨c, hci, hsd⟩ := sameList_get_rev hs i d hdi
  have hkey : c.key = d.key := (sameStruct_parts hsd).2.2.1
  exact ⟨c, List.get?_mem hci, by rw [hkey]; exact hk⟩

/-- The index pass over structurally identical lists recurses at every
position. -/
theorem indexChildren_sameList (parent : VNode) :
    ∀ (l m : List VNode) (i : Nat),
      sameList l m = true →
      (∀ c ∈ l, ∀ d, sameStruct c d = true → goodTree c = true →
        diffNonNull c d = idUpdates c d) →
      goodList l = true →
      indexChildren parent i l m = idUpdatesList l m := by
  intro l
  induction l with
  | nil =>
    intro m i hs _ _
    cases m with
    | nil => rw [indexChildren, idUpdatesList]
    | cons b bs => rw [sameList] at hs; cases hs
  | cons a as2 ihl =>
    intro m i hs hIH hg
    cases m with
    | nil => rw [sameList] at hs; cases hs
    | cons b bs =>
      rw [sameList, Bool.and_eq_true] at hs
      rw [goodList, Bool.and_eq_true] at hg
      have hty : a.ty = b.ty := (sameStruct_parts hs.1).1
      rw [indexChildren, if_neg (fun hh => hh hty), idUpdatesList]
      rw [hIH a (List.mem_cons_self _ _) b hs.1 hg.1]
      rw [ihl bs (i + 1) hs.2
        (fun c hc d hsd hgc => hIH c (List.mem_cons_of_mem _ hc) d hsd hgc) hg.2]

/-- The keyed pass over a structurally identical suffix of a fully keyed,
duplicate-free list recurses at every position and emits no MOVE. -/
theorem keyedChildren_sameList (parent : VNode) (l : List VNode)
    (hnd : nodupNat (l.map VNode.id) = true)
    (hkeys : nodupPVal (keysOfChildren l) = true)
    (hallk : l.all (fun c => c.key.isSome) = true)
    (hIH : ∀ c ∈ l, ∀ d, sameStruct c d = true → goodTree c = true →
        diffNonNull c d = idUpdates c d)
    (hgl : ∀ c ∈ l, goodTree c = true) :
    ∀ (l2 : List VNode) (j : Nat) (m2 : List VNode),
      (∀ i, l2.get? i = l.get? (j + i)) →
      sameList l2 m2 = true →
      keyedChildren parent l j m2 = idUpdatesList l2 m2 := by
  intro l2
  induction l2 with
  | nil =>
    intro j m2 hsuf hs
    cases m2 with
    | nil => rw [keyedChildren_nil, idUpdatesList]
    | cons b bs => rw [sameList] at hs; cases hs
  | cons c cs2 ihl =>
    intro j m2 hsuf hs
    cases m2 with
    | nil => rw [sameList] at hs; cases hs
    | cons d ds2 =>
      rw [sameList, Bool.and_eq_true] at hs
      have hc0 : l.get? j = some c := by
        have := hsuf 0
        rw [Nat.add_zero] at this
        exact this.symm
      have hcm : c ∈ l := List.get?_mem hc0
      obtain ⟨k, hk⟩ : ∃ k, c.key = some k := by
        have := List.all_eq_true.mp hallk c hcm
        exact Option.isSome_iff_exists.mp this
      have hdk : d.key = some k := by
        rw [← (sameStruct_parts hs.1).2.2.1]
        exact hk
      have hlk : keyLookup l k = some c := keyLookup_unique hkeys hcm hk
      have hty : c.ty = d.ty := (sameStruct_parts hs.1).1
      have hidx : indexOfId l 0 c.id = some j := by
        have := indexOfId_nodup hnd hc0 0
        rwa [Nat.zero_add] at this
      rw [keyedChildren_cons, keyedStep_match hdk hlk hty, hidx]
      rw [idUpdatesList, hIH c hcm d hs.1 (hgl c hcm)]
      rw [ihl (j + 1) ds2 (fun i => by
        have hnext := hsuf (i + 1)
        simp only [List.get?] at hnext
        rw [hnext]
        congr 1
        omega) hs.2]
      simp

/-- The cleanup pass over structurally identical, fully keyed,
duplicate-free lists removes nothing. -/
theorem removesUnused_sameList (parent : VNode) {l m : List VNode}
    (hkeys : nodupPVal (keysOfChildren l) = true)
    (hallk : l.all (fun c => c.key.isSome) = true)
    (hs : sameList l m = true) :
    removesUnused parent l m = [] := by
  rw [removesUnused]
  rw [show (l.filter fun c => !((usedIds l m).contains c.id)) = [] from ?_, List.map_nil]
  rw [List.filter_eq_nil_iff]
  intro c hc
  obtain ⟨i, hci⟩ := List.get?_of_mem hc
  obtain ⟨d, hdi, hsd⟩ := sameList_get hs i c hci
  obtain ⟨k, hk⟩ : ∃ k, c.key = some k := by
    have := List.all_eq_true.mp hallk c hc
    exact Option.isSome_iff_exists.mp this
  have hdk : d.key = some k := by
    rw [← (sameStruct_parts hsd).2.2.1]
    exact hk
  have hlk : keyLookup l k = some c := keyLookup_unique hkeys hc hk
  have hmem : c.id ∈ usedIds l m := by
    rw [usedIds, List.mem_filterMap]
    refine ⟨d, List.get?_mem hdi, ?_⟩
    rw [hdk, Option.some_bind, hlk]
    rfl
  simp [hmem]

/-- Identical props diff to nothing (both passes). -/
theorem propsPasses_self {a b : VNode} (hprops : a.props = b.props)
    (hpo : propsOk a.props = true) :
    setPropPatches a (propEntries a.props) (propEntries b.props) = []
      ∧ removePropPatches a (propEntries a.props) (propEntries b.props) = [] := by
  rw [← hprops]
  cases hpr : a.props with
  | none => constructor <;> rfl
  | some pr =>
    rw [hpr] at hpo
    rw [propsOk] at hpo
    exact ⟨setPropPatches_self hpo, removePropPatches_self⟩

/-- Main re-keying lemma, bounded form: the diff of two structurally
identical well-formed trees is exactly one trailing UPDATE per visited
node. -/
theorem diff_sameStruct_bounded :
    ∀ N : Nat, ∀ a b : VNode, sizeOf a ≤ N → sameStruct a b = true →
      goodTree a = true → diffNonNull a b = idUpdates a b := by
  intro N
  induction N with
  | zero =>
    intro a b hle _ _
    exfalso
    have := sizeOf_vnode_pos a
    omega
  | succ N ih =>
    intro a b hle hs hg
    obtain ⟨hty, hprops, _, hch⟩ := sameStruct_parts hs
    rw [goodTree, Bool.and_eq_true, Bool.and_eq_true] at hg
    obtain ⟨⟨hpo, hsib⟩, hglist⟩ := hg
    have hIH : ∀ c ∈ childList a.children, ∀ d, sameStruct c d = true →
        goodTree c = true → diffNonNull c d = idUpdates c d := by
      intro c hcm d hs2 hg2
      refine ih c d ?_ hs2 hg2
      have := sizeOf_mem_childList_lt hcm
      omega
    have hgood := goodList_mem hglist
    cases hca : a.children with
    | ctext s =>
      cases hcb : b.children with
      | cnone => rw [hca, hcb, sameChildren] at hch; cases hch
      | cnodes m => rw [hca, hcb, sameChildren] at hch; cases hch
      | ctext t =>
        rw [hca, hcb, sameChildren] at hch
        have hst : s = t := by simpa using hch
        rw [diffNonNull_text hty hca hcb, idUpdates, hca, hcb]
        simp [hst, childList, idUpdatesList]
    | cnone =>
      cases hcb : b.children with
      | ctext t => rw [hca, hcb, sameChildren] at hch; cases hch
      | cnodes m => rw [hca, hcb, sameChildren] at hch; cases hch
      | cnone =>
        have hbt : bothText a.children b.children = none := by
          rw [hca, hcb]
          rfl
        rw [diffNonNull_main hty hbt, hca, hcb]
        obtain ⟨hsp, hrp⟩ := propsPasses_self hprops hpo
        rw [hsp, hrp]
        rw [idUpdates, hca, hcb]
        simp only [childList]
        rw [show hasAnyKey ([] : List VNode) ([] : List VNode) = false from rfl]
        simp [indexChildren, idUpdatesList]
    | cnodes l =>
      cases hcb : b.children with
      | cnone => rw [hca, hcb, sameChildren] at hch; cases hch
      | ctext t => rw [hca, hcb, sameChildren] at hch; cases hch
      | cnodes m =>
        rw [hca, hcb, sameChildren] at hch
        have hbt : bothText a.children b.children = none := by
          rw [hca, hcb]
          rfl
        rw [diffNonNull_main hty hbt, hca, hcb]
        obtain ⟨hsp, hrp⟩ := propsPasses_self hprops hpo
        rw [hsp, hrp]
        rw [idUpdates, hca, hcb]
        simp only [childList]
        rw [hca] at hIH hglist
        simp only [childList] at hIH hglist
        rw [hca] at hsib
        simp only [childList] at hsib
        by_cases hkk : hasAnyKey l m = true
        · rw [if_pos hkk]
          have hany : l.any (fun c => c.key.isSome) = true := by
            rw [hasAnyKey, Bool.or_eq_true] at hkk
            rcases hkk with hkk | hkk
            · exact hkk
            · exact sameList_any_key hch hkk
          rw [sibsOk, Bool.and_eq_true] at hsib
          have hko : l.all (fun c => c.key.isSome) = true
              ∧ nodupPVal (keysOfChildren l) = true := by
            have h2 := hsib.2
            rw [hany] at h2
            simpa using h2
          rw [keyedChildren_sameList a l hsib.1 hko.2 hko.1 hIH
            (goodList_mem hglist) l 0 m (fun i => by rw [Nat.zero_add]) hch]
          rw [removesUnused_sameList a hko.2 hko.1 hch]
          simp
        · rw [if_neg hkk]
          rw [indexChildren_sameList a l m 0 hch hIH hglist]
          simp

/-- Every expected-diff patch of a sibling list comes from a member pair. -/
theorem mem_idUpdatesList {q : Patch} :
    ∀ {l m : List VNode}, q ∈ idUpdatesList l m →
      ∃ c d, c ∈ l ∧ q ∈ idUpdates c d := by
  intro l
  induction l with
  | nil =>
    intro m h
    rw [idUpdatesList] at h
    cases h
  | cons a as2 ih =>
    intro m h
    cases m with
    | nil =>
      rw [idUpdatesList] at h
      cases h
    | cons b bs2 =>
      rw [idUpdatesList] at h
      rcases List.mem_append.mp h with h | h
      · exact ⟨a, b, List.mem_cons_self _ _, h⟩
      · obtain ⟨c, d, hc, hq⟩ := ih h
        exact ⟨c, d, List.mem_cons_of_mem _ hc, hq⟩

/-- Every expected-diff patch is an UPDATE. -/
theorem mem_idUpdates_bounded :
    ∀ N : Nat, ∀ (a b : VNode) (q : Patch), sizeOf a ≤ N →
      q ∈ idUpdates a b → ∃ u v, q = Patch.update u v := by
  intro N
  induction N with
  | zero =>
    intro a b q hle _
    exfalso
    have := sizeOf_vnode_pos a
    omega
  | succ N ih =>
    intro a b q hle h
    rw [idUpdates] at h
    rcases List.mem_append.mp h with h | h
    · obtain ⟨c, d, hc, hq⟩ := mem_idUpdatesList h
      refine ih c d q ?_ hq
      have := sizeOf_mem_childList_lt hc
      omega
    · exact ⟨a, b, List.mem_singleton.mp h⟩

/-- The expected diff ends with the pair's own UPDATE. -/
theorem idUpdates_getLast (a b : VNode) :
    (idUpdates a b).getLast? = some (.update a b) := by
  rw [idUpdates]
  exact List.getLast?_concat _

/-- Counterexample to claim C1 as stated: two structurally identical trees
(same types, keys, props and text everywhere) whose sibling list mixes a
keyed and an unkeyed child.  The keyed strategy is entered, the unkeyed
child is never matched, and the diff contains an INSERT and a REMOVE
besides the UPDATEs.  (Duplicate keys in a sibling list break the claim
similarly, producing a MOVE and a REMOVE.) -/
theorem claim_C1_counterexample :
    sameStruct w10p w10n = true
      ∧ diffNonNull w10p w10n
          = [.update w10a w10b, .insert w10p w10v 1, .remove w10p w10u,
             .update w10p w10n] := by
  constructor
  · rw [sameStruct]
    simp [w10p, w10n, w10a, w10b, w10u, w10v, VNode.ty, VNode.props, VNode.key,
      VNode.children, sameChildren, sameList, sameStruct]
  · rw [diffNonNull_main (show w10p.ty = w10n.ty from rfl)
      (show bothText w10p.children w10n.children = none from rfl)]
    rw [show setPropPatches w10p (propEntries w10p.props) (propEntries w10n.props)
        = [] from rfl]
    rw [show removePropPatches w10p (propEntries w10p.props) (propEntries w10n.props)
        = [] from rfl]
    rw [if_pos (show hasAnyKey (childList w10p.children) (childList w10n.children)
        = true from rfl)]
    rw [show childList w10p.children = [w10a, w10u] from rfl,
      show childList w10n.children = [w10b, w10v] from rfl]
    rw [keyedChildren_cons, keyedChildren_cons, keyedChildren_nil]
    rw [keyedStep_match (show w10b.key = some (.str "a") from rfl)
      (show keyLookup [w10a, w10u] (.str "a") = some w10a from rfl) rfl]
    rw [keyedStep_nokey (show w10v.key = none from rfl)]
    rw [diffNonNull_main (show w10a.ty = w10b.ty from rfl)
      (show bothText w10a.children w10b.children = none from rfl)]
    rw [show removesUnused w10p [w10a, w10u] [w10b, w10v]
        = [.remove w10p w10u] from rfl]
    simp [indexOfId, w10a, w10u, w10v, VNode.id, childList, w10b, VNode.children,
      setPropPatches, removePropPatches, propEntries, VNode.props, hasAnyKey,
      indexChildren]

/-- Claim C1 as amended: for structurally identical, freshly constructed
trees whose sibling lists are well formed — distinct child identities, and,
wherever any sibling is keyed, all siblings keyed with pairwise-distinct
keys — the diff is exactly the expected one: one trailing UPDATE per
visited node pair (so no SET_PROP, REMOVE_PROP, INSERT, REMOVE, MOVE or
UPDATE_TEXT), ending with the roots' own UPDATE. -/
theorem claim_C1_amended_identical_rekeying :
    ∀ a b : VNode, sameStruct a b = true → goodTree a = true →
      diffNonNull a b = idUpdates a b
        ∧ (∀ q ∈ diffNonNull a b, ∃ u v, q = Patch.update u v)
        ∧ (diffNonNull a b).getLast? = some (.update a b) := by
  intro a b hs hg
  have he := diff_sameStruct_bounded (sizeOf a) a b le_rfl hs hg
  refine ⟨he, ?_, ?_⟩
  · intro q hq
    rw [he] at hq
    exact mem_idUpdates_bounded (sizeOf a) a b q le_rfl hq
  · rw [he]
    exact idUpdates_getLast a b

/-- Concrete structurally identical trees for the C1 witness: a keyed text
pair under a div with a prop. -/
def w1c1 : VNode := .mk "p" none (.ctext "A") (some (.str "a")) 401

def w1c2 : VNode := .mk "p" none (.ctext "B") (some (.str "b")) 402

def w1a : VNode := .mk "div" (some ⟨[("cls", .str "x")], none⟩)
  (.cnodes [w1c1, w1c2]) none 403

def w1d1 : VNode := .mk "p" none (.ctext "A") (some (.str "a")) 404

def w1d2 : VNode := .mk "p" none (.ctext "B") (some (.str "b")) 405

def w1b : VNode := .mk "div" (some ⟨[("cls", .str "x")], none⟩)
  (.cnodes [w1d1, w1d2]) none 406

/-- Witness for the amended C1 at the concrete identical trees. -/
theorem claim_C1_amended_witness :
    diffNonNull w1a w1b = idUpdates w1a w1b
      ∧ (diffNonNull w1a w1b).getLast? = some (.update w1a w1b) := by
  have h := claim_C1_amended_identical_rekeying w1a w1b
    (by
      rw [sameStruct]
      simp [w1a, w1b, w1c1, w1c2, w1d1, w1d2, VNode.ty, VNode.props, VNode.key,
        VNode.children, sameChildren, sameList, sameStruct])
    (by
      rw [goodTree]
      simp [w1a, w1c1, w1c2, VNode.props, VNode.children, VNode.key, VNode.id,
        propsOk, nodupStr, sibsOk, nodupNat, nodupPVal, keysOfChildren, childList,
        goodList, goodTree])
  exact ⟨h.1, h.2.2⟩

/-! Infrastructure for the keyed permutation law. -/

mutual
/-- Post-order list of the identities of a tree. -/
def treeIdsPost (v : VNode) : List Nat :=
  treeIdsPostList (childList v.children) ++ [v.id]
  termination_by sizeOf v
  decreasing_by
    exact sizeOf_childList_lt v

/-- Post-order identities of a list of trees. -/
def treeIdsPostList : List VNode → List Nat
  | [] => []
  | c :: cs => treeIdsPost c ++ treeIdsPostList cs
  termination_by l => sizeOf l
end

/-- The UPDATE pairs of a patch list, in order. -/
def updatePairs (ps : List Patch) : List (VNode × VNode) :=
  ps.filterMap fun q =>
    match q with
    | .update u v => some (u, v)
    | _ => none

/-- The old children fetched by the key matching of the keyed pass, in
next-list order. -/
def matchedOf (oldL newL : List VNode) : List VNode :=
  newL.filterMap fun d => d.key.bind (keyLookup oldL)

/-- UPDATE pairs distribute over concatenation. -/
theorem updatePairs_append (l1 l2 : List Patch) :
    updatePairs (l1 ++ l2) = updatePairs l1 ++ updatePairs l2 := by
  rw [updatePairs, updatePairs, updatePairs, List.filterMap_append]

/-- The SET_PROP pass contributes no UPDATE pairs. -/
theorem updatePairs_setProp (t : VNode) (a b : List (String × PVal)) :
    updatePairs (setPropPatches t a b) = [] := by
  rw [updatePairs, List.filterMap_eq_nil_iff]
  intro q hq
  obtain ⟨k, v, he⟩ := mem_setPropPatches hq
  rw [he]

/-- The REMOVE_PROP pass contributes no UPDATE pairs. -/
theorem updatePairs_removeProp (t : VNode) (a b : List (String × PVal)) :
    updatePairs (removePropPatches t a b) = [] := by
  rw [updatePairs, List.filterMap_eq_nil_iff]
  intro q hq
  obtain ⟨k, he⟩ := mem_removePropPatches hq
  rw [he]

/-- The UPDATE pairs of an expected diff enumerate exactly the post-order
identities of both trees. -/
theorem updatePairs_idUpdates_bounded :
    ∀ N : Nat, ∀ a b : VNode, sizeOf a ≤ N → sameStruct a b = true →
      (updatePairs (idUpdates a b)).map (fun uv => uv.1.id) = treeIdsPost a
        ∧ (updatePairs (idUpdates a b)).map (fun uv => uv.2.id) = treeIdsPost b := by
  intro N
  induction N with
  | zero =>
    intro a b hle _
    exfalso
    have := sizeOf_vnode_pos a
    omega
  | succ N ih =>
    intro a b hle hs
    have hch := (sameStruct_parts hs).2.2.2
    have hlist : ∀ (l m : List VNode), sameList l m = true →
        (∀ c ∈ l, sizeOf c ≤ N) →
        (updatePairs (idUpdatesList l m)).map (fun uv => uv.1.id) = treeIdsPostList l
          ∧ (updatePairs (idUpdatesList l m)).map (fun uv => uv.2.id)
              = treeIdsPostList m := by
      intro l
      induction l with
      | nil =>
        intro m hs2 _
        cases m with
        | nil =>
          rw [idUpdatesList, treeIdsPostList]
          constructor <;> rfl
        | cons b2 bs2 => rw [sameList] at hs2; cases hs2
      | cons a2 as2 ihl =>
        intro m hs2 hsz
        cases m with
        | nil => rw [sameList] at hs2; cases hs2
        | cons b2 bs2 =>
          rw [sameList, Bool.and_eq_true] at hs2
          have h1 := ih a2 b2 (hsz a2 (List.mem_cons_self _ _)) hs2.1
          have h2 := ihl bs2 hs2.2
            (fun c hc => hsz c (List.mem_cons_of_mem _ hc))
          rw [idUpdatesList, updatePairs_append, List.map_append, List.map_append]
          rw [treeIdsPostList, treeIdsPostList]
          rw [h1.1, h1.2, h2.1, h2.2]
          exact ⟨rfl, rfl⟩
    have hsz : ∀ c ∈ childList a.children, sizeOf c ≤ N := by
      intro c hc
      have := sizeOf_mem_childList_lt hc
      omega
    have hclkids : sameList (childList a.children) (childList b.children) = true := by
      cases hca : a.children with
      | cnone =>
        cases hcb : b.children with
        | cnone => simp [childList, sameList]
        | ctext t => rw [hca, hcb, sameChildren] at hch; cases hch
        | cnodes m => rw [hca, hcb, sameChildren] at hch; cases hch
      | ctext s =>
        cases hcb : b.children with
        | cnone => rw [hca, hcb, sameChildren] at hch; cases hch
        | ctext t => simp [childList, sameList]
        | cnodes m => rw [hca, hcb, sameChildren] at hch; cases hch
      | cnodes l =>
        cases hcb : b.children with
        | cnone => rw [hca, hcb, sameChildren] at hch; cases hch
        | ctext t => rw [hca, hcb, sameChildren] at hch; cases hch
        | cnodes m =>
          rw [hca, hcb, sameChildren] at hch
          simpa [childList] using hch
    have hmain := hlist (childList a.children) (childList b.children) hclkids hsz
    rw [idUpdates, updatePairs_append, treeIdsPost, treeIdsPost]
    rw [List.map_append, List.map_append, hmain.1, hmain.2]
    constructor <;> rfl

/-- A patch list containing an UPDATE yields its pair. -/
theorem pair_mem_updatePairs {a b : VNode} {ps : List Patch}
    (h : Patch.update a b ∈ ps) : (a, b) ∈ updatePairs ps := by
  rw [updatePairs, List.mem_filterMap]
  exact ⟨_, h, rfl⟩

/-- The expected diff contains the roots' own UPDATE. -/
theorem update_mem_idUpdates (a b : VNode) : Patch.update a b ∈ idUpdates a b := by
  rw [idUpdates]
  exact List.mem_append_right _ (List.mem_singleton.mpr rfl)

/-- When every old child's key is covered by the next children, the cleanup
pass removes nothing. -/
theorem removesUnused_covered (parent : VNode) {l m : List VNode}
    (hkeysO : nodupPVal (keysOfChildren l) = true)
    (hallkO : ∀ c ∈ l, c.key.isSome = true)
    (hcover : ∀ c ∈ l, ∃ d ∈ m, d.key = c.key) :
    removesUnused parent l m = [] := by
  rw [removesUnused]
  rw [show (l.filter fun c => !((usedIds l m).contains c.id)) = [] from ?_,
    List.map_nil]
  rw [List.filter_eq_nil_iff]
  intro c hc
  obtain ⟨k, hk⟩ := Option.isSome_iff_exists.mp (hallkO c hc)
  obtain ⟨d, hdm, hdk⟩ := hcover c hc
  have hlk := keyLookup_unique hkeysO hc hk
  have hmem : c.id ∈ usedIds l m := by
    rw [usedIds, List.mem_filterMap]
    refine ⟨d, hdm, ?_⟩
    rw [hdk, hk, Option.some_bind, hlk]
    rfl
  simp [hmem]

/-- The MOVE option of a keyed step contributes no UPDATE pairs. -/
theorem updatePairs_moveOpt (parent c : VNode) (f j : Nat) (cond : Prop)
    [Decidable cond] :
    updatePairs (if cond then [Patch.move parent c f j] else []) = [] := by
  by_cases h : cond
  · rw [if_pos h]
    rfl
  · rw [if_neg h]
    rfl

/-- The keyed pass in the permutation case: every patch is harmless for the
identity map (no INSERT, REMOVE or REPLACE), its UPDATE pairs enumerate the
matched old subtrees against the next subtrees, and every matched pair's
own UPDATE is present. -/
theorem keyedChildren_permCase (p : VNode) (oldL : List VNode)
    (hkeysO : nodupPVal (keysOfChildren oldL) = true)
    (hglO : ∀ c ∈ oldL, goodTree c = true) :
    ∀ (ds : List VNode) (j : Nat),
      (∀ d ∈ ds, d.key.isSome = true) →
      (∀ d ∈ ds, ∃ c ∈ oldL, c.key = d.key ∧ sameStruct c d = true) →
      (∀ q ∈ keyedChildren p oldL j ds,
          isInsertP q = false ∧ isRemoveP q = false ∧ isReplaceP q = false)
        ∧ (updatePairs (keyedChildren p oldL j ds)).map (fun uv => uv.1.id)
            = (matchedOf oldL ds).flatMap treeIdsPost
        ∧ (updatePairs (keyedChildren p oldL j ds)).map (fun uv => uv.2.id)
            = treeIdsPostList ds
        ∧ (∀ d ∈ ds, ∀ (k : PVal) (c : VNode), d.key = some k →
            keyLookup oldL k = some c →
            (c, d) ∈ updatePairs (keyedChildren p oldL j ds)) := by
  intro ds
  induction ds with
  | nil =>
    intro j _ _
    rw [keyedChildren_nil]
    refine ⟨fun q hq => absurd hq (List.not_mem_nil q), rfl, ?_, ?_⟩
    · rw [treeIdsPostList]
      rfl
    · intro d hd
      cases hd
  | cons d ds2 ih =>
    intro j hallk hmatch
    obtain ⟨k, hk⟩ := Option.isSome_iff_exists.mp
      (hallk d (List.mem_cons_self _ _))
    obtain ⟨c, hcm, hck, hsame⟩ := hmatch d (List.mem_cons_self _ _)
    rw [hk] at hck
    have hlk : keyLookup oldL k = some c := keyLookup_unique hkeysO hcm hck
    have hty : c.ty = d.ty := (sameStruct_parts hsame).1
    have hdiff : diffNonNull c d = idUpdates c d :=
      diff_sameStruct_bounded (sizeOf c) c d le_rfl hsame (hglO c hcm)
    have hids := updatePairs_idUpdates_bounded (sizeOf c) c d le_rfl hsame
    have hrest := ih (j + 1) (fun x hx => hallk x (List.mem_cons_of_mem _ hx))
      (fun x hx => hmatch x (List.mem_cons_of_mem _ hx))
    have hmat : matchedOf oldL (d :: ds2) = c :: matchedOf oldL ds2 := by
      rw [matchedOf, List.filterMap_cons, hk, Option.some_bind, hlk, matchedOf]
    rw [keyedChildren_cons, keyedStep_match hk hlk hty, hdiff]
    refine ⟨?_, ?_, ?_, ?_⟩
    · intro q hq
      rcases List.mem_append.mp hq with hq | hq
      · rcases List.mem_append.mp hq with hq | hq
        · obtain ⟨u, v, he⟩ :=
            mem_idUpdates_bounded (sizeOf c) c d q le_rfl hq
          rw [he]
          exact ⟨rfl, rfl, rfl⟩
        · by_cases hmv : (indexOfId oldL 0 c.id).getD 0 ≠ j
          · rw [if_pos hmv] at hq
            simp only [List.mem_singleton] at hq
            rw [hq]
            exact ⟨rfl, rfl, rfl⟩
          · rw [if_neg hmv] at hq
            cases hq
      · exact hrest.1 q hq
    · rw [updatePairs_append, updatePairs_append, updatePairs_moveOpt]
      rw [List.append_nil, List.map_append, hids.1, hrest.2.1, hmat]
      rw [List.flatMap_cons]
    · rw [updatePairs_append, updatePairs_append, updatePairs_moveOpt]
      rw [List.append_nil, List.map_append, hids.2, hrest.2.2.1, treeIdsPostList]
    · intro d2 hd2 k2 c2 hk2 hlk2
      rcases List.mem_cons.mp hd2 with hd2 | hd2
      · subst hd2
        rw [hk] at hk2
        injection hk2 with hk2
        subst hk2
        rw [hlk] at hlk2
        injection hlk2 with hlk2
        subst hlk2
        rw [updatePairs_append]
        apply List.mem_append_left
        rw [updatePairs_append]
        apply List.mem_append_left
        exact pair_mem_updatePairs (update_mem_idUpdates _ _)
      · rw [updatePairs_append]
        exact List.mem_append_right _ (hrest.2.2.2 d2 hd2 k2 c2 hk2 hlk2)

/-- Non-UPDATE patches without REPLACE/INSERT/REMOVE leave the renderer
state unchanged. -/
theorem commitPatch_state_nonupdate (container : Nat) (st : RState) :
    ∀ q : Patch,
      isReplaceP q = false → isInsertP q = false → isRemoveP q = false →
      (∀ a b : VNode, q ≠ .update a b) →
      (commitPatch container st q).1 = st := by
  intro q h1 h2 h3 h4
  cases q with
  | replace v => simp [isReplaceP] at h1
  | insert a b i => simp [isInsertP] at h2
  | remove a b => simp [isRemoveP] at h3
  | update a b => exact absurd rfl (h4 a b)
  | updateText v s => cases hm : mapGet st.nodeMap v.id <;> simp [commitPatch, hm]
  | setProp v k val => cases hm : mapGet st.nodeMap v.id <;> simp [commitPatch, hm]
  | removeProp v k => cases hm : mapGet st.nodeMap v.id <;> simp [commitPatch, hm]
  | move pr v f t =>
    cases hm : mapGet st.nodeMap pr.id <;> cases hm2 : mapGet st.nodeMap v.id <;>
      simp [commitPatch, hm, hm2]

/-- Dropping a non-UPDATE head patch keeps the UPDATE pairs. -/
theorem updatePairs_cons_nonupdate {q : Patch} (ps : List Patch)
    (h : ∀ a b : VNode, q ≠ .update a b) :
    updatePairs (q :: ps) = updatePairs ps := by
  cases q with
  | update a b => exact absurd rfl (h a b)
  | replace v => rfl
  | updateText v s => rfl
  | setProp v k val => rfl
  | removeProp v k => rfl
  | insert a b i => rfl
  | remove a b => rfl
  | move pr v f t => rfl

/-- The UPDATE head patch contributes its pair. -/
theorem updatePairs_cons_update (a b : VNode) (ps : List Patch) :
    updatePairs (.update a b :: ps) = (a, b) :: updatePairs ps := rfl

/-- Committing a list of map-safe patches does not change the identity map
at identities untouched by its UPDATE pairs. -/
theorem commitList_untouched (container : Nat) :
    ∀ (ps : List Patch) (st : RState) (x : Nat),
      (∀ q ∈ ps, isReplaceP q = false ∧ isInsertP q = false ∧ isRemoveP q = false) →
      (∀ uv ∈ updatePairs ps, uv.1.id ≠ x ∧ uv.2.id ≠ x) →
      mapGet (commitList container st ps).1.nodeMap x = mapGet st.nodeMap x := by
  intro ps
  induction ps with
  | nil =>
    intro st x _ _
    rfl
  | cons q ps2 ih =>
    intro st x hsafe hids
    have hq := hsafe q (List.mem_cons_self _ _)
    have hsafet : ∀ q2 ∈ ps2, isReplaceP q2 = false ∧ isInsertP q2 = false
        ∧ isRemoveP q2 = false := fun q2 h => hsafe q2 (List.mem_cons_of_mem _ h)
    rw [commitList]
    by_cases hqu : ∃ a b : VNode, q = .update a b
    · obtain ⟨a, b, rfl⟩ := hqu
      have hhead : (a, b) ∈ updatePairs (.update a b :: ps2) := by
        rw [updatePairs_cons_update]
        exact List.mem_cons_self _ _
      have hidst : ∀ uv ∈ updatePairs ps2, uv.1.id ≠ x ∧ uv.2.id ≠ x := by
        intro uv huv
        refine hids uv ?_
        rw [updatePairs_cons_update]
        exact List.mem_cons_of_mem _ huv
      cases hm : mapGet st.nodeMap a.id with
      | none =>
        have hcp : (commitPatch container st (.update a b)).1 = st := by
          simp [commitPatch, hm]
        rw [hcp]
        exact ih st x hsafet hidst
      | some node =>
        have hcp : (commitPatch container st (.update a b)).1
            = { st with nodeMap := mapSet (mapDelete st.nodeMap a.id) b.id node } := by
          simp [commitPatch, hm]
        rw [hcp, ih _ x hsafet hidst]
        simp only
        rw [mapGet_set_ne _ _ (Ne.symm (hids _ hhead).2),
          mapGet_delete_ne _ (Ne.symm (hids _ hhead).1)]
    · have hne : ∀ a b : VNode, q ≠ .update a b := fun a b he => hqu ⟨a, b, he⟩
      have hcp := commitPatch_state_nonupdate container st q hq.1 hq.2.1 hq.2.2 hne
      rw [hcp]
      refine ih st x hsafet ?_
      intro uv huv
      refine hids uv ?_
      rw [updatePairs_cons_nonupdate ps2 hne]
      exact huv

/-- Committing a list of map-safe patches re-keys each UPDATE pair: the new
identity ends up bound to whatever host node the old identity was bound to
before the commit. -/
theorem commitList_rekey (container : Nat) :
    ∀ (ps : List Patch) (st : RState),
      (∀ q ∈ ps, isReplaceP q = false ∧ isInsertP q = false ∧ isRemoveP q = false) →
      ((updatePairs ps).map (fun uv => uv.1.id)).Nodup →
      ((updatePairs ps).map (fun uv => uv.2.id)).Nodup →
      (∀ uv ∈ updatePairs ps, ∀ uv2 ∈ updatePairs ps, uv.2.id ≠ uv2.1.id) →
      (∀ uv ∈ updatePairs ps, mapGet st.nodeMap uv.2.id = none) →
      ∀ uv ∈ updatePairs ps,
        mapGet (commitList container st ps).1.nodeMap uv.2.id
          = mapGet st.nodeMap uv.1.id := by
  intro ps
  induction ps with
  | nil =>
    intro st _ _ _ _ _ uv huv
    cases huv
  | cons q ps2 ih =>
    intro st hsafe hA hB hAB hdom uv huv
    have hsafet : ∀ q2 ∈ ps2, isReplaceP q2 = false ∧ isInsertP q2 = false
        ∧ isRemoveP q2 = false := fun q2 h => hsafe q2 (List.mem_cons_of_mem _ h)
    rw [commitList]
    by_cases hqu : ∃ a b : VNode, q = .update a b
    · obtain ⟨a, b, rfl⟩ := hqu
      rw [updatePairs_cons_update] at hA hB hAB hdom huv
      simp only [List.map_cons, List.nodup_cons] at hA hB
      have hABt : ∀ uv1 ∈ updatePairs ps2, ∀ uv2 ∈ updatePairs ps2,
          uv1.2.id ≠ uv2.1.id := fun uv1 h1 uv2 h2 =>
        hAB uv1 (List.mem_cons_of_mem _ h1) uv2 (List.mem_cons_of_mem _ h2)
      cases hm : mapGet st.nodeMap a.id with
      | none =>
        have hcp : (commitPatch container st (.update a b)).1 = st := by
          simp [commitPatch, hm]
        rw [hcp]
        rcases List.mem_cons.mp huv with huv | huv
        · subst huv
          show mapGet (commitList container st ps2).1.nodeMap b.id
            = mapGet st.nodeMap a.id
          have hfin := commitList_untouched container ps2 st b.id hsafet ?_
          · have h1 : mapGet st.nodeMap b.id = none :=
              hdom (a, b) (List.mem_cons_self _ _)
            rw [hfin, h1, hm]
          · intro uv2 huv2
            constructor
            · intro he
              exact hAB (a, b) (List.mem_cons_self _ _) uv2
                (List.mem_cons_of_mem _ huv2) he.symm
            · intro he
              exact hB.1 (he ▸ List.mem_map_of_mem (fun x => x.2.id) huv2)
        · refine ih st hsafet hA.2 hB.2 hABt
            (fun uv2 h2 => hdom uv2 (List.mem_cons_of_mem _ h2)) uv huv
      | some node =>
        have hcp : (commitPatch container st (.update a b)).1
            = { st with nodeMap := mapSet (mapDelete st.nodeMap a.id) b.id node } := by
          simp [commitPatch, hm]
        rw [hcp]
        rcases List.mem_cons.mp huv with huv | huv
        · subst huv
          show mapGet (commitList container
              { st with nodeMap := mapSet (mapDelete st.nodeMap a.id) b.id node }
              ps2).1.nodeMap b.id = mapGet st.nodeMap a.id
          have hfin := commitList_untouched container ps2
            { st with nodeMap := mapSet (mapDelete st.nodeMap a.id) b.id node }
            b.id hsafet ?_
          · rw [hfin]
            simp only
            rw [mapGet_set_self, hm]
          · intro uv2 huv2
            constructor
            · intro he
              exact hAB (a, b) (List.mem_cons_self _ _) uv2
                (List.mem_cons_of_mem _ huv2) he.symm
            · intro he
              exact hB.1 (he ▸ List.mem_map_of_mem (fun x => x.2.id) huv2)
        · have hb_ne : uv.2.id ≠ b.id := by
            intro he
            exact hB.1 (he ▸ List.mem_map_of_mem (fun x => x.2.id) huv)
          have ha_ne2 : uv.2.id ≠ a.id :=
            hAB uv (List.mem_cons_of_mem _ huv) (a, b) (List.mem_cons_self _ _)
          have hdomt : ∀ uv2 ∈ updatePairs ps2,
              mapGet (mapSet (mapDelete st.nodeMap a.id) b.id node) uv2.2.id
                = none := by
            intro uv2 h2
            have hb2 : uv2.2.id ≠ b.id := by
              intro he
              exact hB.1 (he ▸ List.mem_map_of_mem (fun x => x.2.id) h2)
            have ha2 : uv2.2.id ≠ a.id :=
              hAB uv2 (List.mem_cons_of_mem _ h2) (a, b) (List.mem_cons_self _ _)
            rw [mapGet_set_ne _ _ hb2, mapGet_delete_ne _ ha2]
            exact hdom uv2 (List.mem_cons_of_mem _ h2)
          have hres := ih { st with nodeMap := mapSet (mapDelete st.nodeMap a.id) b.id node }
            hsafet hA.2 hB.2 hABt hdomt uv huv
          rw [hres]
          simp only
          have ha1 : uv.1.id ≠ a.id := by
            intro he
            exact hA.1 (he ▸ List.mem_map_of_mem (fun x => x.1.id) huv)
          have hb1 : uv.1.id ≠ b.id := by
            intro he
            exact hAB (a, b) (List.mem_cons_self _ _) uv
              (List.mem_cons_of_mem _ huv) he.symm
          rw [mapGet_set_ne _ _ hb1, mapGet_delete_ne _ ha1]
    · have hne : ∀ a b : VNode, q ≠ .update a b := fun a b he => hqu ⟨a, b, he⟩
      have hcp := commitPatch_state_nonupdate container st q
        (hsafe q (List.mem_cons_self _ _)).1 (hsafe q (List.mem_cons_self _ _)).2.1
        (hsafe q (List.mem_cons_self _ _)).2.2 hne
      rw [hcp]
      rw [updatePairs_cons_nonupdate ps2 hne] at hA hB hAB hdom huv
      exact ih st hsafet hA hB hAB hdom uv huv

/-- Boolean key distinctness gives propositional distinctness. -/
theorem nodupPVal_nodup {l : List PVal} (h : nodupPVal l = true) : l.Nodup := by
  induction l with
  | nil => exact List.nodup_nil
  | cons x xs ih =>
    rw [nodupPVal, Bool.and_eq_true] at h
    refine List.nodup_cons.mpr ⟨?_, ih h.2⟩
    intro hmem
    have h1 := h.1
    simp [hmem] at h1

/-- For a fully keyed list, the key projection reflects the non-null keys. -/
theorem map_key_eq_map_some {l : List VNode}
    (hall : ∀ c ∈ l, c.key.isSome = true) :
    l.map VNode.key = (keysOfChildren l).map some := by
  induction l with
  | nil => rfl
  | cons a as2 ih =>
    obtain ⟨k, hk⟩ := Option.isSome_iff_exists.mp (hall a (List.mem_cons_self _ _))
    rw [List.map_cons, keysOfChildren, List.filterMap_cons, hk, List.map_cons]
    rw [← keysOfChildren, ih fun c hc => hall c (List.mem_cons_of_mem _ hc)]

/-- A fully keyed, duplicate-free list has a duplicate-free key projection. -/
theorem nodup_map_key {l : List VNode}
    (hall : ∀ c ∈ l, c.key.isSome = true)
    (hkeys : nodupPVal (keysOfChildren l) = true) :
    (l.map VNode.key).Nodup := by
  rw [map_key_eq_map_some hall]
  exact (nodupPVal_nodup hkeys).map (Option.some_injective _)

/-- The matched old children have the next children's keys, pointwise. -/
theorem map_key_matchedOf {oldL : List VNode} :
    ∀ {newL : List VNode},
      (∀ d ∈ newL, ∃ (k : PVal) (c : VNode),
        d.key = some k ∧ keyLookup oldL k = some c) →
      (matchedOf oldL newL).map VNode.key = newL.map VNode.key := by
  intro newL
  induction newL with
  | nil => intro _; rfl
  | cons d ds2 ih =>
    intro hm
    obtain ⟨k, c, hk, hlk⟩ := hm d (List.mem_cons_self _ _)
    rw [matchedOf, List.filterMap_cons, hk, Option.some_bind, hlk]
    rw [List.map_cons, List.map_cons, keyLookup_key hlk, hk]
    rw [show List.filterMap (fun d => d.key.bind (keyLookup oldL)) ds2
        = matchedOf oldL ds2 from rfl]
    rw [ih fun d2 hd2 => hm d2 (List.mem_cons_of_mem _ hd2)]

/-- Matched old children are old children. -/
theorem matchedOf_subset {oldL newL : List VNode} :
    matchedOf oldL newL ⊆ oldL := by
  intro c hc
  rw [matchedOf, List.mem_filterMap] at hc
  obtain ⟨d, _, hfd⟩ := hc
  cases hk : d.key with
  | none => rw [hk] at hfd; cases hfd
  | some k =>
    rw [hk, Option.some_bind] at hfd
    exact keyLookup_mem hfd

/-- Under full coverage, every old child is matched. -/
theorem subset_matchedOf {oldL newL : List VNode}
    (hkeysO : nodupPVal (keysOfChildren oldL) = true)
    (hallkO : ∀ c ∈ oldL, c.key.isSome = true)
    (hcover : ∀ c ∈ oldL, ∃ d ∈ newL, d.key = c.key) :
    oldL ⊆ matchedOf oldL newL := by
  intro c hc
  obtain ⟨k, hk⟩ := Option.isSome_iff_exists.mp (hallkO c hc)
  obtain ⟨d, hdm, hdk⟩ := hcover c hc
  rw [matchedOf, List.mem_filterMap]
  refine ⟨d, hdm, ?_⟩
  rw [hdk, hk, Option.some_bind]
  exact keyLookup_unique hkeysO hc hk

/-- In the permutation setting, the matched old children are a permutation
of the old children. -/
theorem matchedOf_perm {oldL newL : List VNode}
    (hkeysO : nodupPVal (keysOfChildren oldL) = true)
    (hkeysN : nodupPVal (keysOfChildren newL) = true)
    (hallkO : ∀ c ∈ oldL, c.key.isSome = true)
    (hallkN : ∀ d ∈ newL, d.key.isSome = true)
    (hmatch : ∀ d ∈ newL, ∃ c ∈ oldL, c.key = d.key ∧ sameStruct c d = true)
    (hcover : ∀ c ∈ oldL, ∃ d ∈ newL, d.key = c.key) :
    (matchedOf oldL newL).Perm oldL := by
  have hmk : ∀ d ∈ newL, ∃ (k : PVal) (c : VNode),
      d.key = some k ∧ keyLookup oldL k = some c := by
    intro d hd
    obtain ⟨k, hk⟩ := Option.isSome_iff_exists.mp (hallkN d hd)
    obtain ⟨c, hcm, hck, _⟩ := hmatch d hd
    rw [hk] at hck
    exact ⟨k, c, hk, keyLookup_unique hkeysO hcm hck⟩
  have hndM : (matchedOf oldL newL).Nodup := by
    apply List.Nodup.of_map VNode.key
    rw [map_key_matchedOf hmk]
    exact nodup_map_key hallkN hkeysN
  have hndO : oldL.Nodup :=
    List.Nodup.of_map VNode.key (nodup_map_key hallkO hkeysO)
  exact (List.subperm_of_subset hndM matchedOf_subset).antisymm
    (List.subperm_of_subset hndO (subset_matchedOf hkeysO hallkO hcover))

/-- Post-order identities as a flat map. -/
theorem treeIdsPostList_flatMap :
    ∀ l : List VNode, treeIdsPostList l = l.flatMap treeIdsPost := by
  intro l
  induction l with
  | nil => rw [treeIdsPostList]; rfl
  | cons c cs ih => rw [treeIdsPostList, List.flatMap_cons, ih]

/-- Claim C3: for a keyed sibling list and a permutation of it with no
additions, removals or type changes (every next child key-matches a
structurally identical old child, and every old child's key recurs), the
diff contains no INSERT and no REMOVE (only MOVEs besides the bookkeeping
UPDATE stream), and committing the patch list leaves, for every key, the
new child's identity bound to exactly the host node the old child with
that key was bound to — host-node identity is preserved per key. -/
theorem claim_C3_keyed_permutation :
    ∀ (p n : VNode) (oldL newL : List VNode) (container : Nat) (st : RState),
      p.ty = n.ty →
      p.children = .cnodes oldL → n.children = .cnodes newL →
      hasAnyKey oldL newL = true →
      (∀ c ∈ oldL, c.key.isSome = true) → (∀ d ∈ newL, d.key.isSome = true) →
      nodupPVal (keysOfChildren oldL) = true →
      nodupPVal (keysOfChildren newL) = true →
      goodList oldL = true →
      (∀ d ∈ newL, ∃ c ∈ oldL, c.key = d.key ∧ sameStruct c d = true) →
      (∀ c ∈ oldL, ∃ d ∈ newL, d.key = c.key) →
      (treeIdsPost p).Nodup → (treeIdsPost n).Nodup →
      (∀ x ∈ treeIdsPost n, x ∉ treeIdsPost p) →
      (∀ x ∈ treeIdsPost n, mapGet st.nodeMap x = none) →
      (∀ q ∈ diffNonNull p n, isInsertP q = false ∧ isRemoveP q = false)
        ∧ (∀ c ∈ oldL, ∀ d ∈ newL, ∀ k : PVal,
            c.key = some k → d.key = some k →
            ∀ hnode : Nat, mapGet st.nodeMap c.id = some hnode →
              mapGet (commitList container st (diffNonNull p n)).1.nodeMap d.id
                = some hnode) := by
  intro p n oldL newL container st hty hca hcb hkk hallkO hallkN hkeysO hkeysN
    hglO hmatch hcover hndP hndN hdisj hfresh
  have hbt : bothText p.children n.children = none := by
    rw [hca, hcb]
    rfl
  have hclp : childList p.children = oldL := by
    rw [hca]
    rfl
  have hcln : childList n.children = newL := by
    rw [hcb]
    rfl
  have hrm : removesUnused p oldL newL = [] :=
    removesUnused_covered p hkeysO hallkO hcover
  have hK := keyedChildren_permCase p oldL hkeysO (goodList_mem hglO) newL 0
    hallkN hmatch
  have hDmain : diffNonNull p n =
      setPropPatches p (propEntries p.props) (propEntries n.props)
        ++ removePropPatches p (propEntries p.props) (propEntries n.props)
        ++ (keyedChildren p oldL 0 newL ++ removesUnused p oldL newL)
        ++ [.update p n] := by
    rw [diffNonNull_main hty hbt, hclp, hcln, if_pos hkk]
  have hmemD : ∀ q ∈ diffNonNull p n,
      (∃ k v, q = Patch.setProp p k v) ∨ (∃ k, q = Patch.removeProp p k)
        ∨ q ∈ keyedChildren p oldL 0 newL ∨ q = Patch.update p n := by
    intro q hq
    rw [hDmain] at hq
    rcases List.mem_append.mp hq with hq | hq
    · rcases List.mem_append.mp hq with hq | hq
      · rcases List.mem_append.mp hq with hq | hq
        · exact Or.inl (mem_setPropPatches hq)
        · exact Or.inr (Or.inl (mem_removePropPatches hq))
      · rcases List.mem_append.mp hq with hq | hq
        · exact Or.inr (Or.inr (Or.inl hq))
        · rw [hrm] at hq
          cases hq
    · exact Or.inr (Or.inr (Or.inr (List.mem_singleton.mp hq)))
  constructor
  · intro q hq
    rcases hmemD q hq with ⟨k, v, he⟩ | ⟨k, he⟩ | hq2 | he
    · rw [he]
      exact ⟨rfl, rfl⟩
    · rw [he]
      exact ⟨rfl, rfl⟩
    · exact ⟨(hK.1 q hq2).1, (hK.1 q hq2).2.1⟩
    · rw [he]
      exact ⟨rfl, rfl⟩
  · have hsafe : ∀ q ∈ diffNonNull p n,
        isReplaceP q = false ∧ isInsertP q = false ∧ isRemoveP q = false := by
      intro q hq
      rcases hmemD q hq with ⟨k, v, he⟩ | ⟨k, he⟩ | hq2 | he
      · rw [he]
        exact ⟨rfl, rfl, rfl⟩
      · rw [he]
        exact ⟨rfl, rfl, rfl⟩
      · exact ⟨(hK.1 q hq2).2.2, (hK.1 q hq2).1, (hK.1 q hq2).2.1⟩
      · rw [he]
        exact ⟨rfl, rfl, rfl⟩
    have hpairs : updatePairs (diffNonNull p n)
        = updatePairs (keyedChildren p oldL 0 newL) ++ [(p, n)] := by
      rw [hDmain, hrm, List.append_nil]
      rw [updatePairs_append, updatePairs_append, updatePairs_append]
      rw [updatePairs_setProp, updatePairs_removeProp]
      rw [show updatePairs [Patch.update p n] = [(p, n)] from rfl]
      simp
    have haids : (updatePairs (diffNonNull p n)).map (fun uv => uv.1.id)
        = (matchedOf oldL newL).flatMap treeIdsPost ++ [p.id] := by
      rw [hpairs, List.map_append, hK.2.1]
      rfl
    have hbids : (updatePairs (diffNonNull p n)).map (fun uv => uv.2.id)
        = treeIdsPost n := by
      rw [hpairs, List.map_append, hK.2.2.1]
      rw [treeIdsPost, hcln]
      rfl
    have hperm : ((matchedOf oldL newL).flatMap treeIdsPost ++ [p.id]).Perm
        (treeIdsPost p) := by
      rw [treeIdsPost, hclp, treeIdsPostList_flatMap]
      exact List.Perm.append
        (List.Perm.flatMap_right treeIdsPost
          (matchedOf_perm hkeysO hkeysN hallkO hallkN hmatch hcover))
        (List.Perm.refl _)
    have hA : ((updatePairs (diffNonNull p n)).map (fun uv => uv.1.id)).Nodup := by
      rw [haids]
      exact hperm.nodup_iff.mpr hndP
    have hB : ((updatePairs (diffNonNull p n)).map (fun uv => uv.2.id)).Nodup := by
      rw [hbids]
      exact hndN
    have hmemb : ∀ uv ∈ updatePairs (diffNonNull p n), uv.2.id ∈ treeIdsPost n := by
      intro uv huv
      rw [← hbids]
      exact List.mem_map_of_mem _ huv
    have hmema : ∀ uv ∈ updatePairs (diffNonNull p n), uv.1.id ∈ treeIdsPost p := by
      intro uv huv
      refine hperm.mem_iff.mp ?_
      rw [← haids]
      exact List.mem_map_of_mem _ huv
    have hAB : ∀ uv ∈ updatePairs (diffNonNull p n),
        ∀ uv2 ∈ updatePairs (diffNonNull p n), uv.2.id ≠ uv2.1.id := by
      intro uv huv uv2 huv2 he
      exact hdisj uv.2.id (hmemb uv huv) (he ▸ hmema uv2 huv2)
    have hdom : ∀ uv ∈ updatePairs (diffNonNull p n),
        mapGet st.nodeMap uv.2.id = none := fun uv huv => hfresh _ (hmemb uv huv)
    have hrekey := commitList_rekey container (diffNonNull p n) st hsafe hA hB hAB hdom
    intro c hcm d hdm k hck hdk hnode hmap
    have hlk : keyLookup oldL k = some c := keyLookup_unique hkeysO hcm hck
    have hpair : (c, d) ∈ updatePairs (diffNonNull p n) := by
      rw [hpairs]
      exact List.mem_append_left _ (hK.2.2.2 d hdm k c hdk hlk)
    have := hrekey (c, d) hpair
    rw [show ((c, d) : VNode × VNode).2.id = d.id from rfl,
      show ((c, d) : VNode × VNode).1.id = c.id from rfl] at this
    rw [this, hmap]

/-- A keyed old child list `[a, b]`. -/
def w3a : VNode := .mk "li" none .cnone (some (.str "a")) 501

def w3b : VNode := .mk "li" none .cnone (some (.str "b")) 502

def p3 : VNode := .mk "ul" none (.cnodes [w3a, w3b]) none 503

/-- The permuted next list `[b, a]`, freshly constructed. -/
def w3b2 : VNode := .mk "li" none .cnone (some (.str "b")) 504

def w3a2 : VNode := .mk "li" none .cnone (some (.str "a")) 505

def n3 : VNode := .mk "ul" none (.cnodes [w3b2, w3a2]) none 506

/-- A renderer state with host nodes 71, 72, 70 mounted for the old tree. -/
def st3 : RState := ⟨[(501, 71), (502, 72), (503, 70)], some 70, 200⟩

theorem claim_C3_keyed_permutation_witness :
    (∀ q ∈ diffNonNull p3 n3, isInsertP q = false ∧ isRemoveP q = false)
      ∧ mapGet (commitList 70 st3 (diffNonNull p3 n3)).1.nodeMap w3a2.id
          = some 71 := by
  have hidp : treeIdsPost p3 = [501, 502, 503] := by
    simp [treeIdsPost, treeIdsPostList, childList, p3, w3a, w3b, VNode.children,
      VNode.id]
  have hidn : treeIdsPost n3 = [504, 505, 506] := by
    simp [treeIdsPost, treeIdsPostList, childList, n3, w3a2, w3b2, VNode.children,
      VNode.id]
  have h := claim_C3_keyed_permutation p3 n3 [w3a, w3b] [w3b2, w3a2] 70 st3
    rfl rfl rfl rfl
    (by intro c hc; fin_cases hc <;> rfl)
    (by intro d hd; fin_cases hd <;> rfl)
    rfl rfl
    (by
      simp [goodList, goodTree, p3, w3a, w3b, VNode.props, VNode.children,
        VNode.key, VNode.id, propsOk, nodupStr, sibsOk, nodupNat, nodupPVal,
        keysOfChildren, childList])
    (by
      intro d hd
      rcases List.mem_cons.mp hd with he | he
      · refine ⟨w3b, List.mem_cons_of_mem _ (List.mem_cons_self _ _), ?_, ?_⟩
        · rw [he]
          rfl
        · rw [he]
          simp [sameStruct, sameChildren, w3b, w3b2, VNode.ty, VNode.props,
            VNode.key, VNode.children]
      · rw [List.mem_singleton.mp he]
        refine ⟨w3a, List.mem_cons_self _ _, rfl, ?_⟩
        simp [sameStruct, sameChildren, w3a, w3a2, VNode.ty, VNode.props,
          VNode.key, VNode.children])
    (by
      intro c hc
      rcases List.mem_cons.mp hc with he | he
      · rw [he]
        exact ⟨w3a2, List.mem_cons_of_mem _ (List.mem_cons_self _ _), rfl⟩
      · rw [List.mem_singleton.mp he]
        exact ⟨w3b2, List.mem_cons_self _ _, rfl⟩)
    (by rw [hidp]; decide)
    (by rw [hidn]; decide)
    (by rw [hidp, hidn]; decide)
    (by
      rw [hidn]
      intro x hx
      fin_cases hx <;> rfl)
  exact ⟨h.1, h.2 w3a (List.mem_cons_self _ _)
    w3a2 (List.mem_cons_of_mem _ (List.mem_cons_self _ _))
    (.str "a") rfl rfl 71 rfl⟩

end Weave

